import Mathlib

/-!
Verification of signal-ops: order book and technical indicators.

A shallow embedding of `cpp-signal-core` (`order_book.cpp`, `indicators.cpp`).

* `double` values are modelled in exact arithmetic: the order book uses `ℚ`, the
  indicators are written over an arbitrary linearly ordered field (instantiated at `ℚ`
  to run them and at `ℝ` where a square root is needed). This leaves out NaN, infinities,
  overflow and rounding.
* The order-book mutations are embedded a second time, in `signalops.Ieee`, with `double`
  values that may be NaN; the statements that depend on how prices compare are made there.
* `std::vector<T>` is a `List T`; `uint64_t` timestamps and `size_t` sizes are `Nat`.
* Loops are embedded as the loop state after `k` iterations, by recursion on `k`.
-/

namespace signalops

/-! ## Order book (`order_book.h`, `order_book.cpp`) -/

/-- Price level in the order book (`struct PriceLevel`), with the two `double` fields as
exact numbers: no NaN, and sums of quantities do not overflow. -/
structure PriceLevel where
  price : ℚ
  quantity : ℚ
  timestamp_ns : Nat
deriving DecidableEq, Repr

/-- Order book side, bids or asks (`struct OrderBookSide`). -/
structure OrderBookSide where
  levels : List PriceLevel
deriving DecidableEq, Repr

/-- The binary search of `std::lower_bound` with the comparator of `add_level`,
`comp(a, b) = a.price > b.price`: the state is the iterator `first` (an index) and the
remaining length `len`; `fuel` bounds the number of halvings. -/
def lower_bound_loop (levels : List PriceLevel) (price : ℚ) : Nat → Nat → Nat → Nat
  | 0, first, _ => first
  | fuel + 1, first, len =>
    if len = 0 then first
    else
      let half := len / 2
      match levels[first + half]? with
      | some middle =>
        if middle.price > price then
          lower_bound_loop levels price fuel (first + half + 1) (len - half - 1)
        else
          lower_bound_loop levels price fuel first half
      | none => first

/-- The call `std::lower_bound(levels.begin(), levels.end(), level, comp)`; the result is
the index of the returned iterator. -/
def lower_bound (levels : List PriceLevel) (price : ℚ) : Nat :=
  lower_bound_loop levels price levels.length 0 levels.length

namespace OrderBookSide

/-- The method `OrderBookSide::add_level`: insert before the iterator found by
`lower_bound`. -/
def add_level (s : OrderBookSide) (price quantity : ℚ) (timestamp_ns : Nat) :
    OrderBookSide :=
  let level : PriceLevel := ⟨price, quantity, timestamp_ns⟩
  let it := lower_bound s.levels price
  ⟨s.levels.take it ++ level :: s.levels.drop it⟩

/-- The method `OrderBookSide::remove_level`: erase-remove of every level at `price`. -/
def remove_level (s : OrderBookSide) (price : ℚ) : OrderBookSide :=
  ⟨s.levels.filter (fun level => !decide (level.price = price))⟩

/-- The call `std::find_if` of `update_level`: index of the first level at `price`, or
`none` for `levels.end()`. -/
def find_if (price : ℚ) : List PriceLevel → Option Nat
  | [] => none
  | level :: rest =>
    if level.price = price then some 0 else (find_if price rest).map (· + 1)

/-- The method `OrderBookSide::update_level`. -/
def update_level (s : OrderBookSide) (price quantity : ℚ) (timestamp_ns : Nat) :
    OrderBookSide :=
  if quantity = 0 then s.remove_level price
  else
    match find_if price s.levels with
    | some it =>
      ⟨s.levels.modify
        (fun level => { level with quantity := quantity, timestamp_ns := timestamp_ns }) it⟩
    | none => s.add_level price quantity timestamp_ns

/-- The method `OrderBookSide::get_best`. -/
def get_best (s : OrderBookSide) : PriceLevel :=
  match s.levels with
  | [] => ⟨0, 0, 0⟩
  | front :: _ => front

end OrderBookSide

/-- Full order book (`class OrderBook`). -/
structure OrderBook where
  symbol_ : String
  bids_ : OrderBookSide
  asks_ : OrderBookSide
  last_update_ns_ : Nat
deriving DecidableEq, Repr

namespace OrderBook

/-- The constructor `OrderBook::OrderBook(symbol)`. -/
def new (symbol : String) : OrderBook := ⟨symbol, ⟨[]⟩, ⟨[]⟩, 0⟩

/-- The method `OrderBook::update_bid`. -/
def update_bid (b : OrderBook) (price quantity : ℚ) (timestamp_ns : Nat) : OrderBook :=
  { b with bids_ := b.bids_.update_level price quantity timestamp_ns,
           last_update_ns_ := timestamp_ns }

/-- The method `OrderBook::update_ask`. -/
def update_ask (b : OrderBook) (price quantity : ℚ) (timestamp_ns : Nat) : OrderBook :=
  { b with asks_ := b.asks_.update_level price quantity timestamp_ns,
           last_update_ns_ := timestamp_ns }

/-- The method `OrderBook::clear`. -/
def clear (b : OrderBook) : OrderBook :=
  { b with bids_ := ⟨[]⟩, asks_ := ⟨[]⟩, last_update_ns_ := 0 }

/-- The method `OrderBook::get_best_bid`. -/
def get_best_bid (b : OrderBook) : ℚ := b.bids_.get_best.price

/-- The method `OrderBook::get_best_ask`. -/
def get_best_ask (b : OrderBook) : ℚ := b.asks_.get_best.price

/-- The accumulation loop of `get_bid_volume` / `get_ask_volume`: `total` after `count`
iterations. -/
def volume_loop (levels : List PriceLevel) : Nat → ℚ
  | 0 => 0
  | i + 1 => volume_loop levels i + ((levels[i]?).map (·.quantity)).getD 0

/-- The method `OrderBook::get_bid_volume`; `depth` is a C++ `int`, and the number of
levels is taken to fit an `int`. -/
def get_bid_volume (b : OrderBook) (depth : Int) : ℚ :=
  let count : Int := min depth (b.bids_.levels.length : Int)
  volume_loop b.bids_.levels count.toNat

/-- The method `OrderBook::get_ask_volume`; `depth` is a C++ `int`, and the number of
levels is taken to fit an `int`. -/
def get_ask_volume (b : OrderBook) (depth : Int) : ℚ :=
  let count : Int := min depth (b.asks_.levels.length : Int)
  volume_loop b.asks_.levels count.toNat

end OrderBook

/-- One call of the mutating interface of `OrderBook`. -/
inductive Op where
  | update_bid (price quantity : ℚ) (timestamp_ns : Nat)
  | update_ask (price quantity : ℚ) (timestamp_ns : Nat)
  | clear
deriving DecidableEq, Repr

namespace OrderBook

/-- Apply one call to the book. -/
def step (b : OrderBook) : Op → OrderBook
  | .update_bid p q t => b.update_bid p q t
  | .update_ask p q t => b.update_ask p q t
  | .clear => b.clear

/-- Apply a sequence of calls, first call first. -/
def run (b : OrderBook) (ops : List Op) : OrderBook := ops.foldl step b

/-- The book states reachable from a freshly constructed book by
`update_bid` / `update_ask` / `clear` calls. -/
def Reachable (b : OrderBook) : Prop :=
  ∃ (symbol : String) (ops : List Op), b = (OrderBook.new symbol).run ops

end OrderBook

/-- Strictly ascending by price. -/
def StrictAsc (levels : List PriceLevel) : Prop :=
  levels.Pairwise (fun a b => a.price < b.price)

end signalops

/-! ## Order book: derived queries (`order_book.cpp`) -/

namespace signalops

namespace OrderBook

/-- The accessor `OrderBook::symbol`. -/
def symbol (b : OrderBook) : String := b.symbol_

/-- The accessor `OrderBook::last_update_ns`. -/
def last_update_ns (b : OrderBook) : Nat := b.last_update_ns_

/-- The method `OrderBook::get_mid_price`. -/
def get_mid_price (b : OrderBook) : ℚ :=
  let best_bid := b.get_best_bid
  let best_ask := b.get_best_ask
  if best_bid = 0 ∨ best_ask = 0 then 0
  else (best_bid + best_ask) / 2

/-- The method `OrderBook::get_spread`. -/
def get_spread (b : OrderBook) : ℚ :=
  let best_bid := b.get_best_bid
  let best_ask := b.get_best_ask
  if best_bid = 0 ∨ best_ask = 0 then 0
  else best_ask - best_bid

/-- The method `OrderBook::get_order_imbalance`; it takes no argument and reads both
volumes at depth 10. -/
def get_order_imbalance (b : OrderBook) : ℚ :=
  let bid_vol := b.get_bid_volume 10
  let ask_vol := b.get_ask_volume 10
  if bid_vol + ask_vol = 0 then 0
  else (bid_vol - ask_vol) / (bid_vol + ask_vol)

end OrderBook

/-- The call passes a quantity that is not negative. -/
def Op.quantity_nonneg : Op → Prop
  | .update_bid _ q _ => 0 ≤ q
  | .update_ask _ q _ => 0 ≤ q
  | .clear => True

end signalops

/-! ## Order book with `double` prices that may be NaN

The same code of `order_book.cpp`, with a `double` modelled as `Option N`: `none` is NaN and
`some x` an ordinary value, `N` being the ordinary values in the order `double` gives them
(instantiated at `ℚ` to run the code). Every comparison with NaN is false. -/

namespace signalops

namespace Ieee

variable {N : Type} [LinearOrder N]

/-- The comparison `a == b` on `double`: false as soon as one side is NaN. -/
def dbl_eq (a b : Option N) : Bool :=
  match a, b with
  | some x, some y => decide (x = y)
  | _, _ => false

/-- The comparison `a > b` on `double`: false as soon as one side is NaN. -/
def dbl_gt (a b : Option N) : Bool :=
  match a, b with
  | some x, some y => decide (x > y)
  | _, _ => false

/-- The comparison `a <= b` on `double`: false as soon as one side is NaN. -/
def dbl_le (a b : Option N) : Bool :=
  match a, b with
  | some x, some y => decide (x ≤ y)
  | _, _ => false

/-- Price level in the order book (`struct PriceLevel`), both `double` fields possibly
NaN. -/
structure PriceLevel (N : Type) where
  price : Option N
  quantity : Option N
  timestamp_ns : Nat
deriving DecidableEq, Repr

/-- Order book side, bids or asks (`struct OrderBookSide`). -/
structure OrderBookSide (N : Type) where
  levels : List (PriceLevel N)
deriving DecidableEq, Repr

/-- The binary search of `std::lower_bound` with the comparator of `add_level`,
`comp(a, b) = a.price > b.price`, as in `signalops.lower_bound_loop`. -/
def lower_bound_loop (levels : List (PriceLevel N)) (price : Option N) :
    Nat → Nat → Nat → Nat
  | 0, first, _ => first
  | fuel + 1, first, len =>
    if len = 0 then first
    else
      let half := len / 2
      match levels[first + half]? with
      | some middle =>
        if dbl_gt middle.price price then
          lower_bound_loop levels price fuel (first + half + 1) (len - half - 1)
        else
          lower_bound_loop levels price fuel first half
      | none => first

/-- The call `std::lower_bound(levels.begin(), levels.end(), level, comp)`. -/
def lower_bound (levels : List (PriceLevel N)) (price : Option N) : Nat :=
  lower_bound_loop levels price levels.length 0 levels.length

namespace OrderBookSide

/-- The method `OrderBookSide::add_level`. -/
def add_level (s : OrderBookSide N) (price quantity : Option N) (timestamp_ns : Nat) :
    OrderBookSide N :=
  let level : PriceLevel N := ⟨price, quantity, timestamp_ns⟩
  let it := lower_bound s.levels price
  ⟨s.levels.take it ++ level :: s.levels.drop it⟩

/-- The method `OrderBookSide::remove_level`. -/
def remove_level (s : OrderBookSide N) (price : Option N) : OrderBookSide N :=
  ⟨s.levels.filter (fun level => !dbl_eq level.price price)⟩

/-- The call `std::find_if` of `update_level`. -/
def find_if (price : Option N) : List (PriceLevel N) → Option Nat
  | [] => none
  | level :: rest =>
    if dbl_eq level.price price then some 0 else (find_if price rest).map (· + 1)

/-- The method `OrderBookSide::update_level`. -/
def update_level [Zero N] (s : OrderBookSide N) (price quantity : Option N)
    (timestamp_ns : Nat) :
    OrderBookSide N :=
  if dbl_eq quantity (some 0) then s.remove_level price
  else
    match find_if price s.levels with
    | some it =>
      ⟨s.levels.modify
        (fun level => { level with quantity := quantity, timestamp_ns := timestamp_ns }) it⟩
    | none => s.add_level price quantity timestamp_ns

/-- The method `OrderBookSide::get_best`. -/
def get_best [Zero N] (s : OrderBookSide N) : PriceLevel N :=
  match s.levels with
  | [] => ⟨some 0, some 0, 0⟩
  | front :: _ => front

end OrderBookSide

/-- Full order book (`class OrderBook`). -/
structure OrderBook (N : Type) where
  symbol_ : String
  bids_ : OrderBookSide N
  asks_ : OrderBookSide N
  last_update_ns_ : Nat
deriving DecidableEq, Repr

namespace OrderBook

/-- The constructor `OrderBook::OrderBook(symbol)`. -/
def new (symbol : String) : OrderBook N := ⟨symbol, ⟨[]⟩, ⟨[]⟩, 0⟩

/-- The method `OrderBook::update_bid`. -/
def update_bid [Zero N] (b : OrderBook N) (price quantity : Option N)
    (timestamp_ns : Nat) :
    OrderBook N :=
  { b with bids_ := b.bids_.update_level price quantity timestamp_ns,
           last_update_ns_ := timestamp_ns }

/-- The method `OrderBook::update_ask`. -/
def update_ask [Zero N] (b : OrderBook N) (price quantity : Option N)
    (timestamp_ns : Nat) :
    OrderBook N :=
  { b with asks_ := b.asks_.update_level price quantity timestamp_ns,
           last_update_ns_ := timestamp_ns }

/-- The method `OrderBook::clear`. -/
def clear (b : OrderBook N) : OrderBook N :=
  { b with bids_ := ⟨[]⟩, asks_ := ⟨[]⟩, last_update_ns_ := 0 }

/-- The method `OrderBook::get_best_bid`. -/
def get_best_bid [Zero N] (b : OrderBook N) : Option N := b.bids_.get_best.price

end OrderBook

/-- One call of the mutating interface of `OrderBook`. -/
inductive Op (N : Type) where
  | update_bid (price quantity : Option N) (timestamp_ns : Nat)
  | update_ask (price quantity : Option N) (timestamp_ns : Nat)
  | clear
deriving DecidableEq, Repr

/-- The call does not pass NaN as a bid price. -/
def Op.bid_price_ordinary : Op N → Prop
  | .update_bid p _ _ => p ≠ none
  | .update_ask _ _ _ => True
  | .clear => True

/-- The call does not pass NaN as an ask price. -/
def Op.ask_price_ordinary : Op N → Prop
  | .update_bid _ _ _ => True
  | .update_ask p _ _ => p ≠ none
  | .clear => True

/-- The call does not pass NaN as a price. -/
def Op.price_ordinary (op : Op N) : Prop :=
  op.bid_price_ordinary ∧ op.ask_price_ordinary

namespace OrderBook

/-- Apply one call to the book. -/
def step [Zero N] (b : OrderBook N) : Op N → OrderBook N
  | .update_bid p q t => b.update_bid p q t
  | .update_ask p q t => b.update_ask p q t
  | .clear => b.clear

/-- Apply a sequence of calls, first call first. -/
def run [Zero N] (b : OrderBook N) (ops : List (Op N)) : OrderBook N := ops.foldl step b

/-- The book states reachable from a freshly constructed book by
`update_bid` / `update_ask` / `clear` calls that all satisfy `allowed`. -/
def ReachableWith [Zero N] (allowed : Op N → Prop) (b : OrderBook N) : Prop :=
  ∃ (symbol : String) (ops : List (Op N)),
    (∀ op ∈ ops, allowed op) ∧ b = (OrderBook.new symbol).run ops

end OrderBook

/-- Strictly descending by price under the `double` comparison `>`. -/
def StrictDesc (levels : List (PriceLevel N)) : Prop :=
  levels.Pairwise (fun a b => dbl_gt a.price b.price = true)

/-- The invariant of one side: no NaN price, strictly descending prices, no quantity
that compares equal to 0. -/
def SideInv [Zero N] (s : OrderBookSide N) : Prop :=
  (∀ level ∈ s.levels, level.price ≠ none) ∧ StrictDesc s.levels ∧
  ∀ level ∈ s.levels, dbl_eq level.quantity (some 0) = false

end Ieee

end signalops

/-! ## Indicators (`indicators.h`, `indicators.cpp`) -/

namespace signalops

namespace Indicators

variable {α : Type} [LinearOrderedField α]

/-- The vector loop of `simd_sum`: the four lanes of `sum_vec` after `k` iterations, the
`k`-th of which loads `data[4k .. 4k+3]`. -/
def simd_sum_vec (data : List α) : Nat → α × α × α × α
  | 0 => (0, 0, 0, 0)
  | k + 1 =>
    let sum_vec := simd_sum_vec data k
    (sum_vec.1 + data.getD (4 * k) 0, sum_vec.2.1 + data.getD (4 * k + 1) 0,
     sum_vec.2.2.1 + data.getD (4 * k + 2) 0, sum_vec.2.2.2 + data.getD (4 * k + 3) 0)

/-- The remainder loop of `simd_sum`: `sum` after `k` iterations, starting at index
`simd_size` from the value `sum`. -/
def simd_sum_tail (data : List α) (simd_size : Nat) (sum : α) : Nat → α
  | 0 => sum
  | k + 1 => simd_sum_tail data simd_size sum k + data.getD (simd_size + k) 0

/-- The function `Indicators::simd_sum(data, size)`. -/
def simd_sum (data : List α) (size : Nat) : α :=
  let simd_size := size - size % 4
  let sum_array := simd_sum_vec data (simd_size / 4)
  let sum := sum_array.1 + sum_array.2.1 + sum_array.2.2.1 + sum_array.2.2.2
  simd_sum_tail data simd_size sum (size - simd_size)

/-- The vector loop of `simd_std_dev`: the four lanes of `sum_sq_vec` after `k`
iterations. -/
def simd_std_dev_vec (data : List α) (mean : α) : Nat → α × α × α × α
  | 0 => (0, 0, 0, 0)
  | k + 1 =>
    let sum_sq_vec := simd_std_dev_vec data mean k
    (sum_sq_vec.1 + (data.getD (4 * k) 0 - mean) * (data.getD (4 * k) 0 - mean),
     sum_sq_vec.2.1 + (data.getD (4 * k + 1) 0 - mean) * (data.getD (4 * k + 1) 0 - mean),
     sum_sq_vec.2.2.1 + (data.getD (4 * k + 2) 0 - mean) * (data.getD (4 * k + 2) 0 - mean),
     sum_sq_vec.2.2.2 + (data.getD (4 * k + 3) 0 - mean) * (data.getD (4 * k + 3) 0 - mean))

/-- The remainder loop of `simd_std_dev`: `sum_sq` after `k` iterations. -/
def simd_std_dev_tail (data : List α) (mean : α) (simd_size : Nat) (sum_sq : α) : Nat → α
  | 0 => sum_sq
  | k + 1 =>
    let diff := data.getD (simd_size + k) 0 - mean
    simd_std_dev_tail data mean simd_size sum_sq k + diff * diff

/-- The function `Indicators::simd_std_dev(data, size, mean)`; `sqrt` stands for
`std::sqrt`. -/
def simd_std_dev (sqrt : α → α) (data : List α) (size : Nat) (mean : α) : α :=
  let simd_size := size - size % 4
  let sum_sq_array := simd_std_dev_vec data mean (simd_size / 4)
  let sum_sq := sum_sq_array.1 + sum_sq_array.2.1 + sum_sq_array.2.2.1 + sum_sq_array.2.2.2
  sqrt (simd_std_dev_tail data mean simd_size sum_sq (size - simd_size) / size)

/-- The rolling-window loop of `calculate_sma`: the pair `(sum, sma)` after `k`
iterations (iteration `k` has `i = period + k`); before the loop `sma` holds the first
average. -/
def sma_loop (prices : List α) (period : Nat) : Nat → α × List α
  | 0 =>
    let sum := simd_sum prices period
    (sum, [sum / period])
  | k + 1 =>
    let state := sma_loop prices period k
    let i := period + k
    let sum := state.1 - prices.getD (i - period) 0 + prices.getD i 0
    (sum, state.2 ++ [sum / period])

/-- The function `Indicators::calculate_sma(prices, period)`. -/
def calculate_sma (prices : List α) (period : Nat) : List α :=
  if prices.length < period then []
  else (sma_loop prices period (prices.length - period)).2

/-- The recurrence loop of `calculate_ema`: the pair `(current_ema, ema)` after `k`
iterations (iteration `k` has `i = k + 1`). -/
def ema_loop (prices : List α) (multiplier : α) (first_ema : α) : Nat → α × List α
  | 0 => (first_ema, [first_ema])
  | k + 1 =>
    let state := ema_loop prices multiplier first_ema k
    let current_ema := (prices.getD (k + 1) 0 - state.1) * multiplier + state.1
    (current_ema, state.2 ++ [current_ema])

/-- The function `Indicators::calculate_ema(prices, period)`. -/
def calculate_ema (prices : List α) (period : Nat) : List α :=
  if prices.length = 0 then []
  else
    let multiplier : α := 2 / ((period : α) + 1)
    let sum := simd_sum prices (min period prices.length)
    let current_ema := sum / ((min period prices.length : Nat) : α)
    (ema_loop prices multiplier current_ema (prices.length - 1)).2

/-- The vector `gains` of `calculate_rsi`. -/
def rsi_gains (prices : List α) : List α :=
  (List.range' 1 (prices.length - 1)).map fun i =>
    let change := prices.getD i 0 - prices.getD (i - 1) 0
    if change > 0 then change else 0

/-- The vector `losses` of `calculate_rsi`. -/
def rsi_losses (prices : List α) : List α :=
  (List.range' 1 (prices.length - 1)).map fun i =>
    let change := prices.getD i 0 - prices.getD (i - 1) 0
    if change < 0 then -change else 0

/-- The function `Indicators::calculate_rsi(prices, period)`; the guard `period + 1` is
`size_t` arithmetic and wraps at `2 ^ 64`. -/
def calculate_rsi (prices : List α) (period : Nat) : List α :=
  if prices.length < (period + 1) % 2 ^ 64 then []
  else
    let avg_gains := calculate_ema (rsi_gains prices) period
    let avg_losses := calculate_ema (rsi_losses prices) period
    (List.range avg_gains.length).map fun i =>
      if avg_losses.getD i 0 = 0 then 100
      else
        let rs := avg_gains.getD i 0 / avg_losses.getD i 0
        100 - 100 / (1 + rs)

/-- The result record `Indicators::MACDResult`. -/
structure MACDResult (α : Type) where
  macd_line : List α
  signal_line : List α
  histogram : List α

/-- The function `Indicators::calculate_macd(prices, fast, slow, signal)`. -/
def calculate_macd (prices : List α) (fast_period slow_period signal_period : Nat) :
    MACDResult α :=
  if prices.length < slow_period then ⟨[], [], []⟩
  else
    let fast_ema := calculate_ema prices fast_period
    let slow_ema := calculate_ema prices slow_period
    let min_size := min fast_ema.length slow_ema.length
    let macd_line := (List.range min_size).map fun i => fast_ema.getD i 0 - slow_ema.getD i 0
    let signal_line := calculate_ema macd_line signal_period
    let hist_size := min macd_line.length signal_line.length
    let histogram := (List.range hist_size).map fun i =>
      macd_line.getD i 0 - signal_line.getD i 0
    ⟨macd_line, signal_line, histogram⟩

/-- The result record `Indicators::BollingerBands`. -/
structure BollingerBands (α : Type) where
  upper : List α
  middle : List α
  lower : List α

/-- The function `Indicators::calculate_bollinger_bands(prices, period, num_std_dev)`;
`sqrt` stands for `std::sqrt`, and `&prices[i]` is `prices.drop i`. -/
def calculate_bollinger_bands (sqrt : α → α) (prices : List α) (period : Nat)
    (num_std_dev : α) : BollingerBands α :=
  if prices.length < period then ⟨[], [], []⟩
  else
    let middle := calculate_sma prices period
    let upper := (List.range middle.length).map fun i =>
      let mean := middle.getD i 0
      let std_dev := simd_std_dev sqrt (prices.drop i) period mean
      mean + num_std_dev * std_dev
    let lower := (List.range middle.length).map fun i =>
      let mean := middle.getD i 0
      let std_dev := simd_std_dev sqrt (prices.drop i) period mean
      mean - num_std_dev * std_dev
    ⟨upper, middle, lower⟩

/-- The window `prices[i .. i + period)`. -/
def window (prices : List α) (i period : Nat) : List α := (prices.drop i).take period

/-- The naive recomputation the spec compares `calculate_sma` with: one value per window
`prices[i .. i + period)`, `max(0, len - period + 1)` of them, each the arithmetic mean of
its window. -/
def sma_naive (prices : List α) (period : Nat) : List α :=
  (List.range (prices.length + 1 - period)).map fun i =>
    (window prices i period).sum / (period : α)

/-- The population variance of the window `prices[i .. i + period)` about `mean`: the sum
of squared deviations divided by `period`. -/
def window_variance (prices : List α) (i period : Nat) (mean : α) : α :=
  ((window prices i period).map fun x => (x - mean) * (x - mean)).sum / (period : α)

end Indicators

end signalops

/-! ## Indicators: the divisions of `calculate_sma` and `calculate_ema`, made fallible -/

namespace signalops

namespace Indicators

variable {α : Type} [LinearOrderedField α]

/-- A division that records a zero divisor: `none` when `y = 0`, otherwise `x / y`. -/
def checked_div (x y : α) : Option α :=
  if y = 0 then none else some (x / y)

/-- The rolling-window loop of `calculate_sma` as in `sma_loop`, with every `sum / period`
evaluated by `checked_div`. -/
def sma_loop_checked (prices : List α) (period : Nat) : Nat → Option (α × List α)
  | 0 =>
    let sum := simd_sum prices period
    match checked_div sum (period : α) with
    | none => none
    | some first => some (sum, [first])
  | k + 1 =>
    match sma_loop_checked prices period k with
    | none => none
    | some state =>
      let i := period + k
      let sum := state.1 - prices.getD (i - period) 0 + prices.getD i 0
      match checked_div sum (period : α) with
      | none => none
      | some value => some (sum, state.2 ++ [value])

/-- The function `Indicators::calculate_sma` with fallible division: `none` when some
division has a zero divisor. -/
def calculate_sma_checked (prices : List α) (period : Nat) : Option (List α) :=
  if prices.length < period then some []
  else (sma_loop_checked prices period (prices.length - period)).map (·.2)

/-- The function `Indicators::calculate_ema` with fallible division: `none` when the
multiplier `2.0 / (period + 1.0)` or the seed `sum / min(period, size)` has a zero
divisor. -/
def calculate_ema_checked (prices : List α) (period : Nat) : Option (List α) :=
  if prices.length = 0 then some []
  else
    match checked_div (2 : α) ((period : α) + 1) with
    | none => none
    | some multiplier =>
      let sum := simd_sum prices (min period prices.length)
      match checked_div sum ((min period prices.length : Nat) : α) with
      | none => none
      | some current_ema =>
        some (ema_loop prices multiplier current_ema (prices.length - 1)).2

end Indicators

end signalops

/-! ## Indicators: the scalar summation the vectorized helper is compared with -/

namespace signalops

namespace Indicators

variable {α : Type} [LinearOrderedField α]

/-- The plain left-to-right sum of `data[0 .. size)` that the spec compares `simd_sum`
with: the accumulator after `k` additions `sum += data[i]`, starting from 0. -/
def scalar_sum (data : List α) : Nat → α
  | 0 => 0
  | k + 1 => scalar_sum data k + data.getD k 0

end Indicators

end signalops

/-! ## Order book: the levels after `update_level` -/

namespace signalops

open OrderBookSide

theorem find_if_cons_some {price : ℚ} {a : PriceLevel} {rest : List PriceLevel} {i : Nat}
    (h : find_if price (a :: rest) = some i) :
    (a.price = price ∧ i = 0) ∨
    (a.price ≠ price ∧ ∃ j, find_if price rest = some j ∧ i = j + 1) := by
  unfold find_if at h
  by_cases hp : a.price = price
  · left
    simp only [hp, if_true, Option.some.injEq] at h
    exact ⟨hp, h.symm⟩
  · right
    simp only [hp, if_false] at h
    cases hf : find_if price rest with
    | none => rw [hf] at h; simp at h
    | some j =>
      rw [hf] at h
      simp only [Option.map_some', Option.some.injEq] at h
      exact ⟨hp, j, rfl, h.symm⟩

theorem modify_mem {price : ℚ} (quantity : ℚ) (ts : Nat) {levels : List PriceLevel}
    {i : Nat} (h : find_if price levels = some i) :
    ∀ x ∈ levels.modify
        (fun level => { level with quantity := quantity, timestamp_ns := ts }) i,
      x ∈ levels ∨ x = ⟨price, quantity, ts⟩ := by
  induction levels generalizing i with
  | nil => simp [find_if] at h
  | cons a rest ih =>
    rcases find_if_cons_some h with ⟨hp, rfl⟩ | ⟨hp, j, hj, rfl⟩
    · intro x hx
      simp only [List.modify_zero_cons, List.mem_cons] at hx
      rcases hx with rfl | hx
      · right; simp [hp]
      · left; exact List.mem_cons_of_mem _ hx
    · intro x hx
      simp only [List.modify_succ_cons, List.mem_cons] at hx
      rcases hx with rfl | hx
      · left; exact List.mem_cons_self _ _
      · rcases ih hj x hx with hm | he
        · left; exact List.mem_cons_of_mem _ hm
        · right; exact he

theorem add_level_mem (s : OrderBookSide) (price quantity : ℚ) (ts : Nat) (x : PriceLevel) :
    x ∈ (s.add_level price quantity ts).levels ↔ x = ⟨price, quantity, ts⟩ ∨ x ∈ s.levels := by
  unfold add_level
  simp only [List.mem_append, List.mem_cons]
  constructor
  · rintro (h | rfl | h)
    · exact Or.inr (List.mem_of_mem_take h)
    · exact Or.inl rfl
    · exact Or.inr (List.mem_of_mem_drop h)
  · rintro (rfl | h)
    · exact Or.inr (Or.inl rfl)
    · rw [← List.take_append_drop (lower_bound s.levels price) s.levels, List.mem_append] at h
      rcases h with h | h
      · exact Or.inl h
      · exact Or.inr (Or.inr h)

end signalops

/-! ## Order book: levels after an update, empty side, depth volume -/

namespace signalops

open OrderBookSide

theorem update_level_mem {s : OrderBookSide} {price quantity : ℚ} {ts : Nat}
    (hq : quantity ≠ 0) :
    ∀ x ∈ (s.update_level price quantity ts).levels,
      x ∈ s.levels ∨ x = ⟨price, quantity, ts⟩ := by
  unfold update_level
  simp only [hq, if_false]
  cases hf : find_if price s.levels with
  | some i => exact modify_mem quantity ts hf
  | none =>
    intro x hx
    exact ((add_level_mem s price quantity ts x).mp hx).symm

theorem get_best_of_nil {s : OrderBookSide} (h : s.levels = []) : s.get_best = ⟨0, 0, 0⟩ := by
  unfold get_best
  rw [h]

theorem volume_loop_eq_take (levels : List PriceLevel) (n : Nat) :
    OrderBook.volume_loop levels n = ((levels.take n).map (·.quantity)).sum := by
  induction n with
  | zero => simp [OrderBook.volume_loop]
  | succ n ih =>
    rw [OrderBook.volume_loop, ih, List.take_succ]
    cases levels[n]? <;> simp

theorem volume_eq_take (levels : List PriceLevel) (depth : Int) :
    OrderBook.volume_loop levels (min depth (levels.length : Int)).toNat
      = ((levels.take depth.toNat).map (·.quantity)).sum := by
  rw [volume_loop_eq_take]
  congr 2
  by_cases h : depth ≤ (levels.length : Int)
  · rw [min_eq_left h]
  · have h' : (levels.length : Int) ≤ depth := le_of_lt (not_le.mp h)
    rw [min_eq_right h', Int.toNat_ofNat, List.take_length]
    symm
    apply List.take_of_length_le
    omega

end signalops

/-! ## Order book: depth volume and imbalance -/

namespace signalops

theorem take_min_length {β : Type} (l : List β) (n : Nat) :
    l.take (min n l.length) = l.take n := by
  by_cases h : n ≤ l.length
  · rw [min_eq_left h]
  · have h' : l.length ≤ n := by omega
    rw [min_eq_right h', List.take_length, List.take_of_length_le h']

/-- The accumulated volume is the sum of the quantities of the first
`min(depth, number of levels)` levels. -/
theorem volume_eq_take_min (levels : List PriceLevel) (depth : Int) :
    OrderBook.volume_loop levels (min depth (levels.length : Int)).toNat
      = ((levels.take (min depth.toNat levels.length)).map (·.quantity)).sum := by
  rw [volume_eq_take, take_min_length]

theorem take_quantity_sum_nonneg (levels : List PriceLevel) (n : Nat)
    (h : ∀ level ∈ levels, 0 ≤ level.quantity) :
    0 ≤ ((levels.take n).map (·.quantity)).sum := by
  apply List.sum_nonneg
  intro x hx
  obtain ⟨level, hl, rfl⟩ := List.mem_map.mp hx
  exact h level (List.mem_of_mem_take hl)

/-- The imbalance quotient of two non-negative volumes lies in `[-1, 1]`. -/
theorem imbalance_quotient_bounds (bid_vol ask_vol : ℚ) (hb : 0 ≤ bid_vol)
    (ha : 0 ≤ ask_vol) :
    -1 ≤ (if bid_vol + ask_vol = 0 then 0 else (bid_vol - ask_vol) / (bid_vol + ask_vol)) ∧
    (if bid_vol + ask_vol = 0 then 0 else (bid_vol - ask_vol) / (bid_vol + ask_vol)) ≤ 1 := by
  by_cases h : bid_vol + ask_vol = 0
  · simp [h]
  · simp only [h, if_false]
    have hpos : 0 < bid_vol + ask_vol := lt_of_le_of_ne (add_nonneg hb ha) (Ne.symm h)
    constructor
    · rw [le_div_iff₀ hpos]
      linarith
    · rw [div_le_iff₀ hpos]
      linarith

theorem update_level_quantity_nonneg (s : OrderBookSide) (price quantity : ℚ) (ts : Nat)
    (hq : 0 ≤ quantity) (h : ∀ level ∈ s.levels, 0 ≤ level.quantity) :
    ∀ level ∈ (s.update_level price quantity ts).levels, 0 ≤ level.quantity := by
  by_cases hz : quantity = 0
  · intro level hl
    simp only [OrderBookSide.update_level, hz, if_true, OrderBookSide.remove_level] at hl
    exact h level (List.mem_of_mem_filter hl)
  · intro level hl
    rcases update_level_mem hz level hl with hm | rfl
    · exact h level hm
    · exact hq

/-- Calls with non-negative quantities leave only non-negative quantities in the book. -/
theorem run_quantity_nonneg (ops : List Op) (hops : ∀ op ∈ ops, op.quantity_nonneg) :
    ∀ b : OrderBook,
      ((∀ level ∈ b.bids_.levels, 0 ≤ level.quantity) ∧
        ∀ level ∈ b.asks_.levels, 0 ≤ level.quantity) →
      (∀ level ∈ (b.run ops).bids_.levels, 0 ≤ level.quantity) ∧
        ∀ level ∈ (b.run ops).asks_.levels, 0 ≤ level.quantity := by
  induction ops with
  | nil => intro b h; exact h
  | cons op ops ih =>
    intro b h
    apply ih (fun o ho => hops o (List.mem_cons_of_mem _ ho)) (b.step op)
    have hop := hops op (List.mem_cons_self _ _)
    cases op with
    | update_bid p q t => exact ⟨update_level_quantity_nonneg _ p q t hop h.1, h.2⟩
    | update_ask p q t => exact ⟨h.1, update_level_quantity_nonneg _ p q t hop h.2⟩
    | clear =>
      constructor <;>
      · intro level hl
        simp [OrderBook.step, OrderBook.clear] at hl

/-- With non-negative quantities on both sides the imbalance lies in `[-1, 1]`. -/
theorem imbalance_bounds_of_nonneg (b : OrderBook)
    (hb : ∀ level ∈ b.bids_.levels, 0 ≤ level.quantity)
    (ha : ∀ level ∈ b.asks_.levels, 0 ≤ level.quantity) :
    -1 ≤ b.get_order_imbalance ∧ b.get_order_imbalance ≤ 1 := by
  unfold OrderBook.get_order_imbalance
  apply imbalance_quotient_bounds
  · unfold OrderBook.get_bid_volume
    simp only
    rw [volume_eq_take]
    exact take_quantity_sum_nonneg _ _ hb
  · unfold OrderBook.get_ask_volume
    simp only
    rw [volume_eq_take]
    exact take_quantity_sum_nonneg _ _ ha

theorem volume_loop_nil (n : Nat) : OrderBook.volume_loop [] n = 0 := by
  rw [volume_loop_eq_take]
  simp

end signalops

/-! ## Order book with NaN-capable prices: comparisons and the sorted-side invariant -/

namespace signalops

namespace Ieee

variable {N : Type} [LinearOrder N]

theorem dbl_gt_some (x y : N) : dbl_gt (some x) (some y) = true ↔ x > y := by
  simp [dbl_gt]

theorem dbl_eq_some (x y : N) : dbl_eq (some x) (some y) = true ↔ x = y := by
  simp [dbl_eq]

theorem dbl_le_some (x y : N) : dbl_le (some x) (some y) = true ↔ x ≤ y := by
  simp [dbl_le]

theorem dbl_gt_true {a b : Option N} (h : dbl_gt a b = true) :
    ∃ x y, a = some x ∧ b = some y ∧ x > y := by
  cases a with
  | none => simp [dbl_gt] at h
  | some x =>
    cases b with
    | none => simp [dbl_gt] at h
    | some y => exact ⟨x, y, rfl, rfl, (dbl_gt_some x y).mp h⟩

theorem dbl_eq_true {a b : Option N} (h : dbl_eq a b = true) : a = b ∧ a ≠ none := by
  cases a with
  | none => simp [dbl_eq] at h
  | some x =>
    cases b with
    | none => simp [dbl_eq] at h
    | some y =>
      have := (dbl_eq_some x y).mp h
      subst this
      exact ⟨rfl, by simp⟩

theorem dbl_eq_self {a : Option N} (h : a ≠ none) : dbl_eq a a = true := by
  cases a with
  | none => exact absurd rfl h
  | some x => simp [dbl_eq]

theorem dbl_le_self {a : Option N} (h : a ≠ none) : dbl_le a a = true := by
  cases a with
  | none => exact absurd rfl h
  | some x => simp [dbl_le]

theorem dbl_gt_trans {a b c : Option N} (hab : dbl_gt a b = true) (hbc : dbl_gt b c = true) :
    dbl_gt a c = true := by
  obtain ⟨x, y, rfl, rfl, hxy⟩ := dbl_gt_true hab
  obtain ⟨y', z, hy, rfl, hyz⟩ := dbl_gt_true hbc
  cases hy
  exact (dbl_gt_some x z).mpr (lt_trans hyz hxy)

theorem dbl_gt_irrefl (a : Option N) : dbl_gt a a = false := by
  cases a with
  | none => simp [dbl_gt]
  | some x => simp [dbl_gt]

theorem dbl_le_of_gt {a b : Option N} (h : dbl_gt a b = true) : dbl_le b a = true := by
  obtain ⟨x, y, rfl, rfl, hxy⟩ := dbl_gt_true h
  exact (dbl_le_some y x).mpr (le_of_lt hxy)

theorem dbl_le_antisymm {a b : Option N} (hab : dbl_le a b = true) (hba : dbl_le b a = true) :
    a = b := by
  cases a with
  | none => simp [dbl_le] at hab
  | some x =>
    cases b with
    | none => simp [dbl_le] at hab
    | some y =>
      rw [le_antisymm ((dbl_le_some x y).mp hab) ((dbl_le_some y x).mp hba)]

/-- Two ordinary values that are neither `>` nor `==` are in the opposite order. -/
theorem dbl_gt_of_not {a : Option N} {p : N} (ha : a ≠ none)
    (hgt : dbl_gt a (some p) = false) (heq : dbl_eq a (some p) = false) :
    dbl_gt (some p) a = true := by
  cases a with
  | none => exact absurd rfl ha
  | some x =>
    simp only [dbl_gt, dbl_eq, decide_eq_false_iff_not, not_lt, decide_eq_true_eq,
      gt_iff_lt] at hgt heq ⊢
    exact lt_of_le_of_ne hgt heq

theorem lower_bound_loop_spec_dbl (levels : List (PriceLevel N)) (price : Option N)
    (hs : StrictDesc levels) :
    ∀ (fuel first len : Nat), len ≤ fuel → first + len ≤ levels.length →
      (∀ i (h : i < levels.length), i < first → dbl_gt levels[i].price price = true) →
      (∀ i (h : i < levels.length), first + len ≤ i →
        dbl_gt levels[i].price price = false) →
      lower_bound_loop levels price fuel first len ≤ levels.length ∧
      (∀ i (h : i < levels.length),
        i < lower_bound_loop levels price fuel first len →
          dbl_gt levels[i].price price = true) ∧
      (∀ i (h : i < levels.length),
        lower_bound_loop levels price fuel first len ≤ i →
          dbl_gt levels[i].price price = false) := by
  have hsorted := List.pairwise_iff_getElem.mp hs
  intro fuel
  induction fuel with
  | zero =>
    intro first len hlen hbound hlo hhi
    have hz : len = 0 := by omega
    subst hz
    exact ⟨by simpa [lower_bound_loop] using hbound, by simpa [lower_bound_loop] using hlo,
      by simpa [lower_bound_loop] using hhi⟩
  | succ fuel ih =>
    intro first len hlen hbound hlo hhi
    unfold lower_bound_loop
    by_cases hz : len = 0
    · subst hz
      simp only [if_true]
      exact ⟨by omega, hlo, by simpa using hhi⟩
    · simp only [hz, if_false]
      have hhalf : len / 2 < len := Nat.div_lt_self (Nat.pos_of_ne_zero hz) (by decide)
      have hmid : first + len / 2 < levels.length := by omega
      rw [List.getElem?_eq_getElem hmid]
      by_cases hc : dbl_gt levels[first + len / 2].price price = true
      · simp only [hc, if_true]
        apply ih
        · omega
        · omega
        · intro i h hi
          by_cases hlt : i < first
          · exact hlo i h hlt
          · by_cases heq : i = first + len / 2
            · subst heq; exact hc
            · exact dbl_gt_trans (hsorted i (first + len / 2) h hmid (by omega)) hc
        · intro i h hi
          exact hhi i h (by omega)
      · have hc' : dbl_gt levels[first + len / 2].price price = false := by
          simpa using hc
        simp only [hc', Bool.false_eq_true, if_false]
        apply ih
        · omega
        · omega
        · exact hlo
        · intro i h hi
          by_cases heq : i = first + len / 2
          · subst heq; exact hc'
          · have hlt := hsorted (first + len / 2) i hmid h (by omega)
            by_contra hgt
            have hgt' : dbl_gt levels[i].price price = true := by simpa using hgt
            exact hc (dbl_gt_trans hlt hgt')

theorem lower_bound_spec_dbl (levels : List (PriceLevel N)) (price : Option N)
    (hs : StrictDesc levels) :
    lower_bound levels price ≤ levels.length ∧
    (∀ i (h : i < levels.length), i < lower_bound levels price →
      dbl_gt levels[i].price price = true) ∧
    (∀ i (h : i < levels.length), lower_bound levels price ≤ i →
      dbl_gt levels[i].price price = false) := by
  unfold lower_bound
  apply lower_bound_loop_spec_dbl levels price hs
  · exact le_refl _
  · omega
  · intro i _ hi; omega
  · intro i h hi; omega

theorem add_level_strictDesc_dbl (s : OrderBookSide N) (p : N) (quantity : Option N)
    (ts : Nat) (hs : StrictDesc s.levels) (hnan : ∀ level ∈ s.levels, level.price ≠ none)
    (habsent : ∀ level ∈ s.levels, dbl_eq level.price (some p) = false) :
    StrictDesc (s.add_level (some p) quantity ts).levels := by
  obtain ⟨_, hlo, hhi⟩ := lower_bound_spec_dbl s.levels (some p) hs
  unfold OrderBookSide.add_level StrictDesc
  simp only
  rw [List.pairwise_append]
  refine ⟨hs.sublist (List.take_sublist _ _), ?_, ?_⟩
  · rw [List.pairwise_cons]
    refine ⟨?_, hs.sublist (List.drop_sublist _ _)⟩
    intro b hb
    obtain ⟨i, hi, rfl⟩ := List.mem_drop_iff_getElem.mp hb
    have hmem : s.levels[lower_bound s.levels (some p) + i] ∈ s.levels :=
      List.getElem_mem (by omega)
    exact dbl_gt_of_not (hnan _ hmem)
      (hhi (lower_bound s.levels (some p) + i) (by omega) (by omega)) (habsent _ hmem)
  · intro a ha b hb
    rw [List.mem_cons] at hb
    rcases hb with rfl | hb
    · obtain ⟨i, hi, rfl⟩ := List.mem_take_iff_getElem.mp ha
      exact hlo i (by omega) (by omega)
    · have hall : (s.levels.take (lower_bound s.levels (some p)) ++
          s.levels.drop (lower_bound s.levels (some p))).Pairwise
            (fun a b => dbl_gt a.price b.price = true) := by
        rw [List.take_append_drop]; exact hs
      exact (List.pairwise_append.mp hall).2.2 a ha b hb

end Ieee

end signalops

/-! ## Order book with NaN-capable prices: `update_level` on ordinary prices -/

namespace signalops

namespace Ieee

variable {N : Type} [LinearOrder N]

open OrderBookSide

theorem find_if_cons_some_dbl {price : Option N} {a : PriceLevel N}
    {rest : List (PriceLevel N)} {i : Nat} (h : find_if price (a :: rest) = some i) :
    (dbl_eq a.price price = true ∧ i = 0) ∨
    (dbl_eq a.price price = false ∧ ∃ j, find_if price rest = some j ∧ i = j + 1) := by
  unfold find_if at h
  by_cases hp : dbl_eq a.price price = true
  · left
    simp only [hp, if_true, Option.some.injEq] at h
    exact ⟨hp, h.symm⟩
  · right
    have hp' : dbl_eq a.price price = false := by simpa using hp
    simp only [hp', Bool.false_eq_true, if_false] at h
    cases hf : find_if price rest with
    | none => rw [hf] at h; simp at h
    | some j =>
      rw [hf] at h
      simp only [Option.map_some', Option.some.injEq] at h
      exact ⟨hp', j, rfl, h.symm⟩

theorem find_if_eq_none_dbl {price : Option N} {levels : List (PriceLevel N)}
    (h : find_if price levels = none) :
    ∀ level ∈ levels, dbl_eq level.price price = false := by
  induction levels with
  | nil => intro level hl; simp at hl
  | cons a rest ih =>
    unfold find_if at h
    by_cases hp : dbl_eq a.price price = true
    · simp [hp] at h
    · have hp' : dbl_eq a.price price = false := by simpa using hp
      simp only [hp', Bool.false_eq_true, if_false, Option.map_eq_none'] at h
      intro level hl
      rcases List.mem_cons.mp hl with rfl | hl
      · exact hp'
      · exact ih h level hl

theorem find_if_eq_some_mem_dbl {price : Option N} {levels : List (PriceLevel N)} {i : Nat}
    (h : find_if price levels = some i) : ∃ level ∈ levels, level.price = price := by
  induction levels generalizing i with
  | nil => simp [find_if] at h
  | cons a rest ih =>
    rcases find_if_cons_some_dbl h with ⟨hp, _⟩ | ⟨_, j, hj, _⟩
    · exact ⟨a, List.mem_cons_self _ _, (dbl_eq_true hp).1⟩
    · obtain ⟨level, hl, hlp⟩ := ih hj
      exact ⟨level, List.mem_cons_of_mem _ hl, hlp⟩

/-- The in-place overwrite keeps the prices, in order. -/
theorem modify_map_price_dbl {M : Type} (quantity : Option M) (ts : Nat)
    (levels : List (PriceLevel M)) (i : Nat) :
    (levels.modify (fun level => { level with quantity := quantity, timestamp_ns := ts })
      i).map (·.price) = levels.map (·.price) := by
  induction levels generalizing i with
  | nil => simp
  | cons a rest ih =>
    cases i with
    | zero => simp
    | succ j => simpa using ih j

/-- The in-place overwrite at the found position does not touch levels at other prices. -/
theorem modify_filter_ne_dbl {price : Option N} (quantity : Option N) (ts : Nat)
    {levels : List (PriceLevel N)} {i : Nat} (h : find_if price levels = some i) :
    (levels.modify (fun level => { level with quantity := quantity, timestamp_ns := ts })
      i).filter (fun level => !dbl_eq level.price price)
      = levels.filter (fun level => !dbl_eq level.price price) := by
  induction levels generalizing i with
  | nil => simp
  | cons a rest ih =>
    rcases find_if_cons_some_dbl h with ⟨hp, rfl⟩ | ⟨hp, j, hj, rfl⟩
    · simp [hp]
    · simp [hp, ih hj]

theorem no_match_after_match {price : Option N} {a : PriceLevel N}
    {rest : List (PriceLevel N)} (hs : ∀ b ∈ rest, dbl_gt a.price b.price = true)
    (hp : dbl_eq a.price price = true) :
    ∀ b ∈ rest, dbl_eq b.price price = false := by
  intro b hb
  by_contra hne
  have hbp : dbl_eq b.price price = true := by simpa using hne
  have h1 := (dbl_eq_true hp).1
  have h2 := (dbl_eq_true hbp).1
  have hgt := hs b hb
  rw [h1, h2, dbl_gt_irrefl] at hgt
  exact Bool.false_ne_true hgt

/-- On a strictly descending side, after the in-place overwrite the only level that
compares equal to `price` is the new one. -/
theorem modify_filter_eq_dbl {price : Option N} (quantity : Option N) (ts : Nat)
    {levels : List (PriceLevel N)} {i : Nat} (hs : StrictDesc levels)
    (h : find_if price levels = some i) :
    (levels.modify (fun level => { level with quantity := quantity, timestamp_ns := ts })
      i).filter (fun level => dbl_eq level.price price) = [⟨price, quantity, ts⟩] := by
  induction levels generalizing i with
  | nil => simp [find_if] at h
  | cons a rest ih =>
    have hs' := List.pairwise_cons.mp hs
    rcases find_if_cons_some_dbl h with ⟨hp, rfl⟩ | ⟨hp, j, hj, rfl⟩
    · have hrest : rest.filter (fun level => dbl_eq level.price price) = [] := by
        rw [List.filter_eq_nil_iff]
        intro b hb
        simp [no_match_after_match hs'.1 hp b hb]
      have hself : dbl_eq price price = true :=
        dbl_eq_self (by rw [← (dbl_eq_true hp).1]; exact (dbl_eq_true hp).2)
      simp [hrest, (dbl_eq_true hp).1, hself]
    · simp [hp, ih hs'.2 hj]

/-- On a strictly descending side, the in-place overwrite replaces the level that compares
equal to `price` and keeps every other level where it is. -/
theorem modify_eq_map_dbl {price : Option N} (quantity : Option N) (ts : Nat)
    {levels : List (PriceLevel N)} {i : Nat} (hs : StrictDesc levels)
    (h : find_if price levels = some i) :
    levels.modify (fun level => { level with quantity := quantity, timestamp_ns := ts }) i
      = levels.map (fun level =>
          if dbl_eq level.price price then ⟨price, quantity, ts⟩ else level) := by
  induction levels generalizing i with
  | nil => simp [find_if] at h
  | cons a rest ih =>
    have hs' := List.pairwise_cons.mp hs
    rcases find_if_cons_some_dbl h with ⟨hp, rfl⟩ | ⟨hp, j, hj, rfl⟩
    · have hrest : rest.map (fun level =>
          if dbl_eq level.price price then (⟨price, quantity, ts⟩ : PriceLevel N) else level)
            = rest := by
        conv_rhs => rw [← List.map_id rest]
        apply List.map_congr_left
        intro b hb
        simp [no_match_after_match hs'.1 hp b hb]
      have hself : dbl_eq price price = true :=
        dbl_eq_self (by rw [← (dbl_eq_true hp).1]; exact (dbl_eq_true hp).2)
      simp [hrest, (dbl_eq_true hp).1, hself]
    · simp [hp, ih hs'.2 hj]

theorem modify_mem_dbl {price : Option N} (quantity : Option N) (ts : Nat)
    {levels : List (PriceLevel N)} {i : Nat} (h : find_if price levels = some i) :
    ∀ x ∈ levels.modify
        (fun level => { level with quantity := quantity, timestamp_ns := ts }) i,
      x ∈ levels ∨ x = ⟨price, quantity, ts⟩ := by
  induction levels generalizing i with
  | nil => simp [find_if] at h
  | cons a rest ih =>
    rcases find_if_cons_some_dbl h with ⟨hp, rfl⟩ | ⟨hp, j, hj, rfl⟩
    · intro x hx
      simp only [List.modify_zero_cons, List.mem_cons] at hx
      rcases hx with rfl | hx
      · right; simp [(dbl_eq_true hp).1]
      · left; exact List.mem_cons_of_mem _ hx
    · intro x hx
      simp only [List.modify_succ_cons, List.mem_cons] at hx
      rcases hx with rfl | hx
      · left; exact List.mem_cons_self _ _
      · rcases ih hj x hx with hm | he
        · left; exact List.mem_cons_of_mem _ hm
        · right; exact he

theorem strictDesc_of_map_price_dbl {l₁ l₂ : List (PriceLevel N)}
    (h : l₁.map (·.price) = l₂.map (·.price)) (hs : StrictDesc l₂) : StrictDesc l₁ := by
  have key : ∀ l : List (PriceLevel N),
      StrictDesc l ↔ (l.map (·.price)).Pairwise (fun a b => dbl_gt a b = true) := by
    intro l
    unfold StrictDesc
    rw [List.pairwise_map]
  rw [key, h, ← key]
  exact hs

theorem add_level_mem_dbl (s : OrderBookSide N) (price quantity : Option N) (ts : Nat)
    (x : PriceLevel N) :
    x ∈ (s.add_level price quantity ts).levels ↔ x = ⟨price, quantity, ts⟩ ∨ x ∈ s.levels := by
  unfold add_level
  simp only [List.mem_append, List.mem_cons]
  constructor
  · rintro (h | rfl | h)
    · exact Or.inr (List.mem_of_mem_take h)
    · exact Or.inl rfl
    · exact Or.inr (List.mem_of_mem_drop h)
  · rintro (rfl | h)
    · exact Or.inr (Or.inl rfl)
    · rw [← List.take_append_drop (lower_bound s.levels price) s.levels, List.mem_append] at h
      rcases h with h | h
      · exact Or.inl h
      · exact Or.inr (Or.inr h)

/-- A strictly descending side without NaN carries a strictly decreasing list of ordinary
prices. -/
theorem strictDesc_values {levels : List (PriceLevel N)}
    (hn : ∀ level ∈ levels, level.price ≠ none) (hs : StrictDesc levels) :
    ∃ ps : List N, levels.map (·.price) = ps.map some ∧ ps.Pairwise (fun x y => x > y) := by
  induction levels with
  | nil => exact ⟨[], rfl, List.Pairwise.nil⟩
  | cons a rest ih =>
    have hs' := List.pairwise_cons.mp hs
    obtain ⟨ps, hps, hpair⟩ := ih (fun l hl => hn l (List.mem_cons_of_mem _ hl)) hs'.2
    obtain ⟨x, hx⟩ := Option.ne_none_iff_exists'.mp (hn a (List.mem_cons_self _ _))
    refine ⟨x :: ps, by simp [hx, hps], ?_⟩
    rw [List.pairwise_cons]
    refine ⟨?_, hpair⟩
    intro y hy
    have hy' : some y ∈ rest.map (·.price) := by
      rw [hps]; exact List.mem_map_of_mem _ hy
    obtain ⟨l, hl, hlp⟩ := List.mem_map.mp hy'
    have := hs'.1 l hl
    rw [hx, hlp] at this
    exact (dbl_gt_some x y).mp this

variable [Zero N]

theorem update_level_mem_dbl {s : OrderBookSide N} {price quantity : Option N} {ts : Nat}
    (hq : dbl_eq quantity (some 0) = false) :
    ∀ x ∈ (s.update_level price quantity ts).levels,
      x ∈ s.levels ∨ x = ⟨price, quantity, ts⟩ := by
  unfold update_level
  simp only [hq, Bool.false_eq_true, if_false]
  cases hf : find_if price s.levels with
  | some i => exact modify_mem_dbl quantity ts hf
  | none =>
    intro x hx
    exact ((add_level_mem_dbl s price quantity ts x).mp hx).symm

theorem update_level_inv_dbl (s : OrderBookSide N) (p : N) (quantity : Option N) (ts : Nat)
    (h : SideInv s) : SideInv (s.update_level (some p) quantity ts) := by
  obtain ⟨hn, hs, hq⟩ := h
  by_cases hz : dbl_eq quantity (some 0) = true
  · unfold update_level
    simp only [hz, if_true]
    exact ⟨fun level hl => hn level (List.mem_of_mem_filter hl),
      hs.sublist (List.filter_sublist _),
      fun level hl => hq level (List.mem_of_mem_filter hl)⟩
  · have hz' : dbl_eq quantity (some 0) = false := by simpa using hz
    have hmem := @update_level_mem_dbl N _ _ s (some p) quantity ts hz'
    refine ⟨?_, ?_, ?_⟩
    · intro level hl
      rcases hmem level hl with hm | rfl
      · exact hn level hm
      · simp
    · unfold update_level
      simp only [hz', Bool.false_eq_true, if_false]
      cases hf : find_if (some p) s.levels with
      | some i =>
        exact strictDesc_of_map_price_dbl (modify_map_price_dbl quantity ts s.levels i) hs
      | none =>
        exact add_level_strictDesc_dbl s p quantity ts hs hn (find_if_eq_none_dbl hf)
    · intro level hl
      rcases hmem level hl with hm | rfl
      · exact hq level hm
      · exact hz'

theorem step_bids_inv (b : OrderBook N) (op : Op N) (hop : op.bid_price_ordinary)
    (h : SideInv b.bids_) : SideInv (b.step op).bids_ := by
  cases op with
  | update_bid p q t =>
    obtain ⟨x, rfl⟩ := Option.ne_none_iff_exists'.mp hop
    exact update_level_inv_dbl _ x q t h
  | update_ask p q t => exact h
  | clear =>
    refine ⟨?_, List.Pairwise.nil, ?_⟩ <;>
    · intro level hl
      simp [OrderBook.step, OrderBook.clear] at hl

theorem step_asks_inv (b : OrderBook N) (op : Op N) (hop : op.ask_price_ordinary)
    (h : SideInv b.asks_) : SideInv (b.step op).asks_ := by
  cases op with
  | update_bid p q t => exact h
  | update_ask p q t =>
    obtain ⟨x, rfl⟩ := Option.ne_none_iff_exists'.mp hop
    exact update_level_inv_dbl _ x q t h
  | clear =>
    refine ⟨?_, List.Pairwise.nil, ?_⟩ <;>
    · intro level hl
      simp [OrderBook.step, OrderBook.clear] at hl

theorem run_bids_inv (ops : List (Op N)) (hops : ∀ op ∈ ops, op.bid_price_ordinary) :
    ∀ b : OrderBook N, SideInv b.bids_ → SideInv (b.run ops).bids_ := by
  induction ops with
  | nil => intro b h; exact h
  | cons op ops ih =>
    intro b h
    exact ih (fun o ho => hops o (List.mem_cons_of_mem _ ho)) (b.step op)
      (step_bids_inv b op (hops op (List.mem_cons_self _ _)) h)

theorem run_asks_inv (ops : List (Op N)) (hops : ∀ op ∈ ops, op.ask_price_ordinary) :
    ∀ b : OrderBook N, SideInv b.asks_ → SideInv (b.run ops).asks_ := by
  induction ops with
  | nil => intro b h; exact h
  | cons op ops ih =>
    intro b h
    exact ih (fun o ho => hops o (List.mem_cons_of_mem _ ho)) (b.step op)
      (step_asks_inv b op (hops op (List.mem_cons_self _ _)) h)

theorem new_inv_dbl (symbol : String) :
    SideInv (OrderBook.new symbol : OrderBook N).bids_ ∧
    SideInv (OrderBook.new symbol : OrderBook N).asks_ := by
  refine ⟨⟨?_, List.Pairwise.nil, ?_⟩, ⟨?_, List.Pairwise.nil, ?_⟩⟩ <;>
  · intro level hl
    simp [OrderBook.new] at hl

theorem reachable_bids_inv {b : OrderBook N} (h : b.ReachableWith Op.bid_price_ordinary) :
    SideInv b.bids_ := by
  obtain ⟨symbol, ops, hops, rfl⟩ := h
  exact run_bids_inv ops hops _ (new_inv_dbl symbol).1

theorem reachable_inv_dbl {b : OrderBook N} (h : b.ReachableWith Op.price_ordinary) :
    SideInv b.bids_ ∧ SideInv b.asks_ := by
  obtain ⟨symbol, ops, hops, rfl⟩ := h
  exact ⟨run_bids_inv ops (fun op ho => (hops op ho).1) _ (new_inv_dbl symbol).1,
    run_asks_inv ops (fun op ho => (hops op ho).2) _ (new_inv_dbl symbol).2⟩

end Ieee

end signalops

/-! ## Order book with NaN-capable prices: what one update does, best price -/

namespace signalops

namespace Ieee

variable {N : Type} [LinearOrder N]

open OrderBookSide

theorem add_level_filter_ne_dbl (s : OrderBookSide N) (p : N) (quantity : Option N)
    (ts : Nat) :
    (s.add_level (some p) quantity ts).levels.filter
        (fun level => !dbl_eq level.price (some p))
      = s.levels.filter (fun level => !dbl_eq level.price (some p)) := by
  unfold add_level
  simp only [List.filter_append]
  rw [List.filter_cons_of_neg (by simp [dbl_eq]), ← List.filter_append,
    List.take_append_drop]

theorem add_level_filter_eq_dbl (s : OrderBookSide N) (p : N) (quantity : Option N)
    (ts : Nat) (habsent : ∀ level ∈ s.levels, dbl_eq level.price (some p) = false) :
    (s.add_level (some p) quantity ts).levels.filter
        (fun level => dbl_eq level.price (some p))
      = [⟨some p, quantity, ts⟩] := by
  have hnil : ∀ l : List (PriceLevel N), (∀ level ∈ l, level ∈ s.levels) →
      l.filter (fun level => dbl_eq level.price (some p)) = [] := by
    intro l hl
    rw [List.filter_eq_nil_iff]
    intro a ha
    simp [habsent a (hl a ha)]
  unfold add_level
  simp only [List.filter_append]
  rw [hnil _ (fun _ h => List.mem_of_mem_take h), List.filter_cons_of_pos (by simp [dbl_eq]),
    hnil _ (fun _ h => List.mem_of_mem_drop h)]
  rfl

theorem add_level_length_dbl (s : OrderBookSide N) (price quantity : Option N) (ts : Nat) :
    (s.add_level price quantity ts).levels.length = s.levels.length + 1 := by
  unfold add_level
  simp only [List.length_append, List.length_cons, List.length_take, List.length_drop]
  omega

variable [Zero N]

/-- What `update_level` at an ordinary price, with a quantity that does not compare equal
to 0, does to a strictly descending side. -/
theorem update_level_spec_dbl (s : OrderBookSide N) (p : N) (quantity : Option N) (ts : Nat)
    (hs : StrictDesc s.levels) (hq : dbl_eq quantity (some 0) = false) :
    (s.update_level (some p) quantity ts).levels.filter
        (fun level => dbl_eq level.price (some p))
      = [⟨some p, quantity, ts⟩] ∧
    ((∃ level ∈ s.levels, level.price = some p) →
      (s.update_level (some p) quantity ts).levels.length = s.levels.length ∧
      (s.update_level (some p) quantity ts).levels.map (·.price) = s.levels.map (·.price) ∧
      (s.update_level (some p) quantity ts).levels
        = s.levels.map (fun level =>
            if dbl_eq level.price (some p) then ⟨some p, quantity, ts⟩ else level)) ∧
    ((¬ ∃ level ∈ s.levels, level.price = some p) →
      (s.update_level (some p) quantity ts).levels.length = s.levels.length + 1) ∧
    (s.update_level (some p) quantity ts).levels.filter
        (fun level => !dbl_eq level.price (some p))
      = s.levels.filter (fun level => !dbl_eq level.price (some p)) := by
  unfold update_level
  simp only [hq, Bool.false_eq_true, if_false]
  cases hf : find_if (some p) s.levels with
  | some i =>
    refine ⟨modify_filter_eq_dbl quantity ts hs hf, ?_, ?_, modify_filter_ne_dbl quantity ts hf⟩
    · intro _
      exact ⟨List.length_modify _ _ _, modify_map_price_dbl quantity ts s.levels i,
        modify_eq_map_dbl quantity ts hs hf⟩
    · intro hne
      exact absurd (find_if_eq_some_mem_dbl hf) hne
  | none =>
    have habsent := find_if_eq_none_dbl hf
    refine ⟨add_level_filter_eq_dbl s p quantity ts habsent, ?_, ?_,
      add_level_filter_ne_dbl s p quantity ts⟩
    · rintro ⟨level, hl, hp⟩
      have := habsent level hl
      rw [hp] at this
      simp [dbl_eq] at this
    · intro _
      exact add_level_length_dbl s (some p) quantity ts

theorem get_best_of_nil_dbl {M : Type} [Zero M] {s : OrderBookSide M} (h : s.levels = []) :
    s.get_best = ⟨some 0, some 0, 0⟩ := by
  unfold get_best
  rw [h]

theorem get_best_mem_dbl {M : Type} [Zero M] {s : OrderBookSide M} (h : s.levels ≠ []) :
    s.get_best ∈ s.levels := by
  unfold get_best
  cases hl : s.levels with
  | nil => exact absurd hl h
  | cons a rest => simp

/-- On a strictly descending side without NaN the front level carries the highest
price. -/
theorem get_best_ge_dbl {s : OrderBookSide N} (hn : ∀ level ∈ s.levels, level.price ≠ none)
    (hs : StrictDesc s.levels) :
    ∀ level ∈ s.levels, dbl_le level.price s.get_best.price = true := by
  unfold get_best
  cases hl : s.levels with
  | nil => intro level h; simp at h
  | cons a rest =>
    rw [hl] at hs hn
    intro level h
    rcases List.mem_cons.mp h with rfl | h
    · exact dbl_le_self (hn _ (List.mem_cons_self _ _))
    · exact dbl_le_of_gt ((List.pairwise_cons.mp hs).1 level h)

end Ieee

end signalops

/-! ## Indicators: the lane-parallel helpers compute plain sums -/

namespace signalops

namespace Indicators

variable {α : Type} [LinearOrderedField α]

theorem sum_take_succ (data : List α) (n : Nat) :
    (data.take (n + 1)).sum = (data.take n).sum + data.getD n 0 := by
  rw [List.take_succ, List.sum_append, List.getD_eq_getElem?_getD]
  cases data[n]? <;> simp

theorem simd_sum_vec_eq (data : List α) (k : Nat) :
    (simd_sum_vec data k).1 + (simd_sum_vec data k).2.1 + (simd_sum_vec data k).2.2.1
      + (simd_sum_vec data k).2.2.2 = (data.take (4 * k)).sum := by
  induction k with
  | zero => simp [simd_sum_vec]
  | succ k ih =>
    have h4 : 4 * (k + 1) = 4 * k + 3 + 1 := by ring
    rw [h4, sum_take_succ, sum_take_succ, sum_take_succ, sum_take_succ, ← ih]
    simp only [simd_sum_vec]
    ring

theorem simd_sum_tail_eq (data : List α) (simd_size : Nat) (k : Nat) :
    simd_sum_tail data simd_size (data.take simd_size).sum k
      = (data.take (simd_size + k)).sum := by
  induction k with
  | zero => simp [simd_sum_tail]
  | succ k ih =>
    rw [simd_sum_tail, ih, ← Nat.add_assoc, sum_take_succ]

/-- The lane-parallel sum is the plain sum of the first `size` elements. -/
theorem simd_sum_eq (data : List α) (size : Nat) :
    simd_sum data size = (data.take size).sum := by
  unfold simd_sum
  simp only
  rw [simd_sum_vec_eq]
  have h1 : 4 * ((size - size % 4) / 4) = size - size % 4 := by omega
  have h2 : size - size % 4 + (size - (size - size % 4)) = size := by omega
  rw [h1, simd_sum_tail_eq, h2]

theorem getD_map_of_lt (f : α → α) (data : List α) (i : Nat) (h : i < data.length) :
    (data.map f).getD i 0 = f (data.getD i 0) := by
  simp [List.getD_eq_getElem?_getD, List.getElem?_eq_getElem h]

theorem simd_std_dev_vec_eq (data : List α) (mean : α) (k : Nat) (h : 4 * k ≤ data.length) :
    simd_std_dev_vec data mean k
      = simd_sum_vec (data.map fun x => (x - mean) * (x - mean)) k := by
  induction k with
  | zero => simp [simd_std_dev_vec, simd_sum_vec]
  | succ k ih =>
    simp only [simd_std_dev_vec, simd_sum_vec]
    rw [ih (by omega), getD_map_of_lt _ _ _ (by omega), getD_map_of_lt _ _ _ (by omega),
      getD_map_of_lt _ _ _ (by omega), getD_map_of_lt _ _ _ (by omega)]

theorem simd_std_dev_tail_eq (data : List α) (mean : α) (simd_size : Nat) (sum_sq : α)
    (k : Nat) (h : simd_size + k ≤ data.length) :
    simd_std_dev_tail data mean simd_size sum_sq k
      = simd_sum_tail (data.map fun x => (x - mean) * (x - mean)) simd_size sum_sq k := by
  induction k with
  | zero => simp [simd_std_dev_tail, simd_sum_tail]
  | succ k ih =>
    simp only [simd_std_dev_tail, simd_sum_tail]
    rw [ih (by omega), getD_map_of_lt _ _ _ (by omega)]

/-- The lane-parallel standard deviation is `sqrt` of the sum of squared deviations of
the first `size` elements, divided by `size`. -/
theorem simd_std_dev_eq (sqrt : α → α) (data : List α) (size : Nat) (mean : α)
    (h : size ≤ data.length) :
    simd_std_dev sqrt data size mean
      = sqrt (((data.take size).map fun x => (x - mean) * (x - mean)).sum / (size : α)) := by
  have key := simd_sum_eq (data.map fun x => (x - mean) * (x - mean)) size
  unfold simd_sum at key
  simp only at key
  unfold simd_std_dev
  simp only
  rw [simd_std_dev_vec_eq data mean _ (by omega),
    simd_std_dev_tail_eq data mean _ _ _ (by omega), key, List.map_take]

end Indicators

end signalops

/-! ## Indicators: the rolling sum of `calculate_sma`, the recurrence of `calculate_ema` -/

namespace signalops

namespace Indicators

variable {α : Type} [LinearOrderedField α]

/-- The sum of the first `k + period` prices splits at `k` into a prefix and a window. -/
theorem sum_take_add_window (prices : List α) (k period : Nat) :
    (prices.take (k + period)).sum = (prices.take k).sum + (window prices k period).sum := by
  rw [List.take_add, List.sum_append]
  rfl

/-- Sliding the window by one drops `prices[k]` and takes in `prices[k + period]`. -/
theorem window_sum_succ (prices : List α) (k period : Nat) :
    (window prices (k + 1) period).sum
      = (window prices k period).sum - prices.getD k 0 + prices.getD (k + period) 0 := by
  have h1 := sum_take_add_window prices (k + 1) period
  have h2 := sum_take_add_window prices k period
  have h3 := sum_take_succ prices (k + period)
  have h4 := sum_take_succ prices k
  have h5 : k + 1 + period = k + period + 1 := by omega
  rw [h5, h3, h4] at h1
  linear_combination h2 - h1

theorem sma_loop_spec (prices : List α) (period : Nat) (k : Nat) :
    (sma_loop prices period k).1 = (window prices k period).sum ∧
    (sma_loop prices period k).2
      = (List.range (k + 1)).map fun i => (window prices i period).sum / (period : α) := by
  induction k with
  | zero =>
    simp only [sma_loop, simd_sum_eq]
    simp [window, List.range_succ]
  | succ k ih =>
    have hsum : (sma_loop prices period (k + 1)).1 = (window prices (k + 1) period).sum := by
      simp only [sma_loop]
      rw [ih.1, window_sum_succ, Nat.add_sub_cancel_left, Nat.add_comm period k]
    refine ⟨hsum, ?_⟩
    have hlist : (sma_loop prices period (k + 1)).2
        = (sma_loop prices period k).2
            ++ [(sma_loop prices period (k + 1)).1 / (period : α)] := by
      simp only [sma_loop]
    rw [hlist, hsum, ih.2, List.range_succ (k + 1), List.map_append]
    rfl

/-- The rolling-sum computation agrees with the naive per-window recomputation. -/
theorem calculate_sma_eq_naive (prices : List α) (period : Nat) :
    calculate_sma prices period = sma_naive prices period := by
  unfold calculate_sma sma_naive
  by_cases h : prices.length < period
  · have h0 : prices.length + 1 - period = 0 := by omega
    simp [h, h0]
  · have h1 : prices.length + 1 - period = prices.length - period + 1 := by omega
    simp only [h, if_false]
    rw [(sma_loop_spec prices period _).2, h1]

theorem sma_naive_length (prices : List α) (period : Nat) :
    (sma_naive prices period).length = prices.length + 1 - period := by
  simp [sma_naive]

theorem sma_naive_getD (prices : List α) (period : Nat) (i : Nat)
    (h : i < prices.length + 1 - period) :
    (sma_naive prices period).getD i 0 = (window prices i period).sum / (period : α) := by
  simp [sma_naive, List.getD_eq_getElem?_getD, List.getElem?_range h]

theorem ema_loop_length (prices : List α) (multiplier first_ema : α) (k : Nat) :
    (ema_loop prices multiplier first_ema k).2.length = k + 1 := by
  induction k with
  | zero => simp [ema_loop]
  | succ k ih => simp [ema_loop, ih]

/-- Entry `i` of the output vector is the value `current_ema` had after `i` iterations. -/
theorem ema_loop_getD (prices : List α) (multiplier first_ema : α) (k i : Nat) (h : i ≤ k) :
    (ema_loop prices multiplier first_ema k).2.getD i 0
      = (ema_loop prices multiplier first_ema i).1 := by
  induction k with
  | zero =>
    have hi : i = 0 := by omega
    subst hi
    simp [ema_loop]
  | succ k ih =>
    have hlen := ema_loop_length prices multiplier first_ema k
    by_cases hik : i ≤ k
    · simp only [ema_loop]
      rw [List.getD_append _ _ _ _ (by omega)]
      exact ih hik
    · have hi : i = k + 1 := by omega
      subst hi
      simp only [ema_loop]
      rw [List.getD_append_right _ _ _ _ (by omega), hlen]
      simp

theorem calculate_ema_length (prices : List α) (period : Nat) :
    (calculate_ema prices period).length = prices.length := by
  unfold calculate_ema
  by_cases h : prices.length = 0
  · simp [h]
  · simp only [h, if_false]
    rw [ema_loop_length]
    omega

theorem calculate_ema_getD (prices : List α) (period : Nat) (i : Nat)
    (h : i < prices.length) :
    (calculate_ema prices period).getD i 0
      = (ema_loop prices (2 / ((period : α) + 1))
          (simd_sum prices (min period prices.length)
            / ((min period prices.length : Nat) : α)) i).1 := by
  unfold calculate_ema
  have hne : ¬ prices.length = 0 := by omega
  simp only [hne, if_false]
  exact ema_loop_getD _ _ _ _ _ (by omega)

/-- A smoothing step with `0 ≤ multiplier ≤ 1` keeps the running value non-negative on
non-negative data. -/
theorem ema_loop_nonneg (prices : List α) (multiplier first_ema : α)
    (hdata : ∀ i, 0 ≤ prices.getD i 0) (hfirst : 0 ≤ first_ema)
    (h0 : 0 ≤ multiplier) (h1 : multiplier ≤ 1) (k : Nat) :
    0 ≤ (ema_loop prices multiplier first_ema k).1 := by
  induction k with
  | zero => simpa [ema_loop] using hfirst
  | succ k ih =>
    simp only [ema_loop]
    have hx := hdata (k + 1)
    have e : (prices.getD (k + 1) 0 - (ema_loop prices multiplier first_ema k).1) * multiplier
          + (ema_loop prices multiplier first_ema k).1
        = prices.getD (k + 1) 0 * multiplier
          + (1 - multiplier) * (ema_loop prices multiplier first_ema k).1 := by ring
    rw [e]
    have := mul_nonneg hx h0
    have := mul_nonneg (sub_nonneg.mpr h1) ih
    linarith

theorem multiplier_bounds (period : Nat) (h : 1 ≤ period) :
    (0 : α) ≤ 2 / ((period : α) + 1) ∧ (2 : α) / ((period : α) + 1) ≤ 1 := by
  have hp : (1 : α) ≤ (period : α) := by exact_mod_cast h
  have hpos : (0 : α) < (period : α) + 1 := by linarith
  refine ⟨le_of_lt (div_pos (by norm_num) hpos), ?_⟩
  rw [div_le_one hpos]
  linarith

theorem getD_nonneg_of_forall (l : List α) (h : ∀ x ∈ l, 0 ≤ x) (i : Nat) :
    0 ≤ l.getD i 0 := by
  by_cases hi : i < l.length
  · rw [List.getD_eq_getElem _ _ hi]
    exact h _ (List.getElem_mem hi)
  · rw [List.getD_eq_default _ _ (by omega)]

/-- On non-negative data and `period ≥ 1`, every value of `calculate_ema` is
non-negative. -/
theorem calculate_ema_nonneg (data : List α) (period : Nat) (hp : 1 ≤ period)
    (hdata : ∀ x ∈ data, 0 ≤ x) (i : Nat) :
    0 ≤ (calculate_ema data period).getD i 0 := by
  by_cases hi : i < data.length
  · rw [calculate_ema_getD data period i hi]
    obtain ⟨h0, h1⟩ := multiplier_bounds (α := α) period hp
    apply ema_loop_nonneg _ _ _ (getD_nonneg_of_forall data hdata) _ h0 h1
    rw [simd_sum_eq]
    apply div_nonneg
    · exact List.sum_nonneg (fun x hx => hdata x (List.mem_of_mem_take hx))
    · exact Nat.cast_nonneg _
  · rw [List.getD_eq_default _ _ (by rw [calculate_ema_length]; omega)]

end Indicators

end signalops

/-! ## Indicators: gains, losses and the RSI formula -/

namespace signalops

namespace Indicators

variable {α : Type} [LinearOrderedField α]

theorem getD_map_range (f : Nat → α) (n i : Nat) (h : i < n) :
    ((List.range n).map f).getD i 0 = f i := by
  simp [List.getD_eq_getElem?_getD, List.getElem?_range h]

theorem rsi_gains_length (prices : List α) : (rsi_gains prices).length = prices.length - 1 := by
  simp [rsi_gains]

theorem rsi_losses_length (prices : List α) :
    (rsi_losses prices).length = prices.length - 1 := by
  simp [rsi_losses]

theorem rsi_gains_nonneg (prices : List α) : ∀ x ∈ rsi_gains prices, 0 ≤ x := by
  intro x hx
  unfold rsi_gains at hx
  obtain ⟨i, _, rfl⟩ := List.mem_map.mp hx
  simp only
  split
  · next h => exact le_of_lt h
  · exact le_refl _

theorem rsi_losses_nonneg (prices : List α) : ∀ x ∈ rsi_losses prices, 0 ≤ x := by
  intro x hx
  unfold rsi_losses at hx
  obtain ⟨i, _, rfl⟩ := List.mem_map.mp hx
  simp only
  split
  · next h => exact le_of_lt (neg_pos.mpr h)
  · exact le_refl _

/-- With a non-negative average gain and a positive average loss, the divisor
`1 + rs` is at least 1. -/
theorem one_le_one_add_rs (g l : α) (hg : 0 ≤ g) (hl : 0 < l) : 1 ≤ 1 + g / l := by
  have := div_nonneg hg (le_of_lt hl)
  linarith

/-- The RSI formula maps a non-negative average gain and loss into `[0, 100]`. -/
theorem rsi_value_bounds (g l : α) (hg : 0 ≤ g) (hl : 0 ≤ l) :
    0 ≤ (if l = 0 then (100 : α) else 100 - 100 / (1 + g / l)) ∧
    (if l = 0 then (100 : α) else 100 - 100 / (1 + g / l)) ≤ 100 := by
  by_cases h : l = 0
  · simp [h]
  · simp only [h, if_false]
    have hpos : 0 < l := lt_of_le_of_ne hl (Ne.symm h)
    have h1 := one_le_one_add_rs g l hg hpos
    have hd : (0 : α) < 1 + g / l := by linarith
    have hq : (100 : α) / (1 + g / l) ≤ 100 := by
      rw [div_le_iff₀ hd]
      nlinarith
    have hq0 : (0 : α) ≤ 100 / (1 + g / l) := div_nonneg (by norm_num) (le_of_lt hd)
    constructor <;> linarith

theorem window_variance_nonneg (prices : List α) (i period : Nat) (mean : α) :
    0 ≤ window_variance prices i period mean := by
  unfold window_variance
  apply div_nonneg _ (Nat.cast_nonneg _)
  apply List.sum_nonneg
  intro x hx
  obtain ⟨y, _, rfl⟩ := List.mem_map.mp hx
  exact mul_self_nonneg _

theorem window_length {β : Type} (prices : List β) (i period : Nat)
    (h : i + period ≤ prices.length) :
    (window prices i period).length = period := by
  simp only [window, List.length_take, List.length_drop]
  omega

end Indicators

end signalops

/-! ## Indicators: RSI values, all-zero losses, fallible divisions -/

namespace signalops

namespace Indicators

variable {α : Type} [LinearOrderedField α]

theorem rsi_gains_getD (prices : List α) (j : Nat) (h : j + 1 < prices.length) :
    (rsi_gains prices).getD j 0 = max (prices.getD (j + 1) 0 - prices.getD j 0) 0 := by
  have hj : j < prices.length - 1 := by omega
  unfold rsi_gains
  rw [List.getD_eq_getElem?_getD, List.getElem?_map, List.getElem?_range' 1 1 hj]
  simp only [Option.map_some', Option.getD_some]
  rw [show 1 + 1 * j = j + 1 by omega, Nat.add_sub_cancel]
  split
  · next hc => exact (max_eq_left (le_of_lt hc)).symm
  · next hc => exact (max_eq_right (not_lt.mp hc)).symm

theorem rsi_losses_getD (prices : List α) (j : Nat) (h : j + 1 < prices.length) :
    (rsi_losses prices).getD j 0 = max (prices.getD j 0 - prices.getD (j + 1) 0) 0 := by
  have hj : j < prices.length - 1 := by omega
  unfold rsi_losses
  rw [List.getD_eq_getElem?_getD, List.getElem?_map, List.getElem?_range' 1 1 hj]
  simp only [Option.map_some', Option.getD_some]
  rw [show 1 + 1 * j = j + 1 by omega, Nat.add_sub_cancel]
  split
  · next hc =>
    rw [neg_sub]
    exact (max_eq_left (by linarith)).symm
  · next hc =>
    exact (max_eq_right (by linarith [not_lt.mp hc])).symm

/-- Past the length guard, `calculate_rsi` has one value per price change, given by the
RSI formula on the two averages. -/
theorem calculate_rsi_of_guard (prices : List α) (period : Nat)
    (hguard : ¬ prices.length < (period + 1) % 2 ^ 64) :
    (calculate_rsi prices period).length = prices.length - 1 ∧
    ∀ i, i < prices.length - 1 →
      (calculate_rsi prices period).getD i 0
        = if (calculate_ema (rsi_losses prices) period).getD i 0 = 0 then 100
          else 100 - 100 / (1 + (calculate_ema (rsi_gains prices) period).getD i 0
                                / (calculate_ema (rsi_losses prices) period).getD i 0) := by
  unfold calculate_rsi
  rw [if_neg hguard]
  simp only [calculate_ema_length, rsi_gains_length, List.length_map, List.length_range,
    true_and]
  intro i hi
  exact getD_map_range _ _ _ hi

theorem ema_loop_zero (data : List α) (multiplier : α) (hdata : ∀ i, data.getD i 0 = 0)
    (k : Nat) : (ema_loop data multiplier 0 k).1 = 0 := by
  induction k with
  | zero => simp [ema_loop]
  | succ k ih =>
    simp only [ema_loop]
    rw [ih, hdata]
    simp

theorem getD_eq_zero_of_forall (l : List α) (h : ∀ x ∈ l, x = 0) (i : Nat) :
    l.getD i 0 = 0 := by
  by_cases hi : i < l.length
  · rw [List.getD_eq_getElem _ _ hi]
    exact h _ (List.getElem_mem hi)
  · rw [List.getD_eq_default _ _ (by omega)]

theorem sum_eq_zero_of_forall (l : List α) (h : ∀ x ∈ l, x = 0) : l.sum = 0 := by
  induction l with
  | nil => simp
  | cons a rest ih =>
    rw [List.sum_cons, h a (List.mem_cons_self _ _),
      ih (fun x hx => h x (List.mem_cons_of_mem _ hx))]
    simp

/-- The moving average of an all-zero sequence is zero at every index. -/
theorem calculate_ema_zero (data : List α) (period : Nat) (h : ∀ x ∈ data, x = 0) (i : Nat) :
    (calculate_ema data period).getD i 0 = 0 := by
  by_cases hi : i < data.length
  · rw [calculate_ema_getD data period i hi, simd_sum_eq,
      sum_eq_zero_of_forall _ (fun x hx => h x (List.mem_of_mem_take hx)), zero_div]
    exact ema_loop_zero data _ (getD_eq_zero_of_forall data h) i
  · rw [List.getD_eq_default _ _ (by rw [calculate_ema_length]; omega)]

/-- The first value of the moving average is zero as soon as the seeding window is. -/
theorem calculate_ema_head_zero (data : List α) (period : Nat)
    (h : ∀ x ∈ data.take (min period data.length), x = 0) :
    (calculate_ema data period).getD 0 0 = 0 := by
  by_cases hi : 0 < data.length
  · rw [calculate_ema_getD data period 0 hi, simd_sum_eq, sum_eq_zero_of_forall _ h, zero_div]
    simp [ema_loop]
  · rw [List.getD_eq_default _ _ (by rw [calculate_ema_length]; omega)]

theorem checked_div_zero (x : α) : checked_div x 0 = none := by
  simp [checked_div]

theorem checked_div_of_ne (x y : α) (h : y ≠ 0) : checked_div x y = some (x / y) := by
  simp [checked_div, h]

theorem sma_loop_checked_zero (prices : List α) (k : Nat) :
    sma_loop_checked prices 0 k = none := by
  induction k with
  | zero => simp [sma_loop_checked, checked_div_zero]
  | succ k ih => simp [sma_loop_checked, ih]

theorem sma_loop_checked_of_ne (prices : List α) (period : Nat) (h : (period : α) ≠ 0)
    (k : Nat) : sma_loop_checked prices period k = some (sma_loop prices period k) := by
  induction k with
  | zero => simp [sma_loop_checked, sma_loop, checked_div_of_ne _ _ h]
  | succ k ih => simp [sma_loop_checked, sma_loop, ih, checked_div_of_ne _ _ h]

end Indicators

end signalops

/-! ## Indicators: scalar sum, lanes, and bounds on the moving average -/

namespace signalops

namespace Indicators

variable {α : Type} [LinearOrderedField α]

theorem scalar_sum_eq_take (data : List α) (size : Nat) :
    scalar_sum data size = (data.take size).sum := by
  induction size with
  | zero => simp [scalar_sum]
  | succ k ih => rw [scalar_sum, ih, sum_take_succ]

/-- Lane `j` of the vector accumulator holds the sum of the elements at indices
`j, j + 4, j + 8, ...` below `4 * k`. -/
theorem simd_sum_vec_lanes (data : List α) (k : Nat) :
    (simd_sum_vec data k).1 = ∑ i in Finset.range k, data.getD (4 * i) 0 ∧
    (simd_sum_vec data k).2.1 = ∑ i in Finset.range k, data.getD (4 * i + 1) 0 ∧
    (simd_sum_vec data k).2.2.1 = ∑ i in Finset.range k, data.getD (4 * i + 2) 0 ∧
    (simd_sum_vec data k).2.2.2 = ∑ i in Finset.range k, data.getD (4 * i + 3) 0 := by
  induction k with
  | zero => simp [simd_sum_vec]
  | succ k ih =>
    obtain ⟨h0, h1, h2, h3⟩ := ih
    simp only [simd_sum_vec, Finset.sum_range_succ]
    exact ⟨by rw [h0], by rw [h1], by rw [h2], by rw [h3]⟩

theorem length_mul_le_sum (l : List α) (lo : α) (h : ∀ x ∈ l, lo ≤ x) :
    (l.length : α) * lo ≤ l.sum := by
  induction l with
  | nil => simp
  | cons a rest ih =>
    have ha := h a (List.mem_cons_self _ _)
    have hr := ih (fun x hx => h x (List.mem_cons_of_mem _ hx))
    simp only [List.length_cons, List.sum_cons, Nat.cast_add, Nat.cast_one]
    linarith

theorem sum_le_length_mul (l : List α) (hi : α) (h : ∀ x ∈ l, x ≤ hi) :
    l.sum ≤ (l.length : α) * hi := by
  induction l with
  | nil => simp
  | cons a rest ih =>
    have ha := h a (List.mem_cons_self _ _)
    have hr := ih (fun x hx => h x (List.mem_cons_of_mem _ hx))
    simp only [List.length_cons, List.sum_cons, Nat.cast_add, Nat.cast_one]
    linarith

/-- The mean of a non-empty list lies between any lower and upper bound of its
elements. -/
theorem mean_bounds (l : List α) (lo hi : α) (hne : 0 < l.length)
    (h : ∀ x ∈ l, lo ≤ x ∧ x ≤ hi) :
    lo ≤ l.sum / (l.length : α) ∧ l.sum / (l.length : α) ≤ hi := by
  have hpos : (0 : α) < (l.length : α) := by exact_mod_cast hne
  constructor
  · rw [le_div_iff₀ hpos, mul_comm]
    exact length_mul_le_sum l lo (fun x hx => (h x hx).1)
  · rw [div_le_iff₀ hpos, mul_comm]
    exact sum_le_length_mul l hi (fun x hx => (h x hx).2)

/-- A smoothing step with `0 ≤ multiplier ≤ 1` is a convex combination, so the running
value stays between any bounds of the data and of the seed. -/
theorem ema_loop_bounds (prices : List α) (multiplier first_ema lo hi : α)
    (hdata : ∀ x ∈ prices, lo ≤ x ∧ x ≤ hi) (hfirst : lo ≤ first_ema ∧ first_ema ≤ hi)
    (h0 : 0 ≤ multiplier) (h1 : multiplier ≤ 1) (k : Nat) (hk : k < prices.length) :
    lo ≤ (ema_loop prices multiplier first_ema k).1 ∧
    (ema_loop prices multiplier first_ema k).1 ≤ hi := by
  induction k with
  | zero => simpa [ema_loop] using hfirst
  | succ k ih =>
    obtain ⟨ihlo, ihhi⟩ := ih (by omega)
    simp only [ema_loop]
    rw [List.getD_eq_getElem _ _ hk]
    obtain ⟨hxlo, hxhi⟩ := hdata _ (List.getElem_mem hk)
    have h1' : 0 ≤ 1 - multiplier := sub_nonneg.mpr h1
    constructor
    · nlinarith [mul_nonneg h0 (sub_nonneg.mpr hxlo), mul_nonneg h1' (sub_nonneg.mpr ihlo)]
    · nlinarith [mul_nonneg h0 (sub_nonneg.mpr hxhi), mul_nonneg h1' (sub_nonneg.mpr ihhi)]

/-- For `period ≥ 1`, every value of `calculate_ema` lies between any lower and upper
bound of the prices. -/
theorem calculate_ema_bounds (prices : List α) (period : Nat) (hp : 1 ≤ period)
    (lo hi : α) (hdata : ∀ x ∈ prices, lo ≤ x ∧ x ≤ hi) :
    ∀ y ∈ calculate_ema prices period, lo ≤ y ∧ y ≤ hi := by
  intro y hy
  obtain ⟨i, hi', hget⟩ := List.getElem_of_mem hy
  have hlen := calculate_ema_length prices period
  have hi'' : i < prices.length := by omega
  have hval := calculate_ema_getD prices period i hi''
  rw [List.getD_eq_getElem _ _ hi', hget] at hval
  rw [hval]
  obtain ⟨h0, h1⟩ := multiplier_bounds (α := α) period hp
  apply ema_loop_bounds prices _ _ lo hi hdata _ h0 h1 i hi''
  rw [simd_sum_eq]
  have hl : (prices.take (min period prices.length)).length = min period prices.length := by
    rw [List.length_take]
    omega
  have := mean_bounds (prices.take (min period prices.length)) lo hi (by rw [hl]; omega)
    (fun x hx => hdata x (List.mem_of_mem_take hx))
  rw [hl] at this
  exact this

/-- A non-empty list has a least and a greatest element. -/
theorem exists_min_max (l : List α) (hne : l ≠ []) :
    ∃ lo ∈ l, ∃ hi ∈ l, ∀ x ∈ l, lo ≤ x ∧ x ≤ hi := by
  induction l with
  | nil => exact absurd rfl hne
  | cons a rest ih =>
    by_cases hr : rest = []
    · subst hr
      exact ⟨a, List.mem_cons_self _ _, a, List.mem_cons_self _ _, by simp⟩
    · obtain ⟨lo, hlo, hi, hhi, hb⟩ := ih hr
      refine ⟨min a lo, ?_, max a hi, ?_, ?_⟩
      · rcases min_choice a lo with h | h
        · rw [h]; exact List.mem_cons_self _ _
        · rw [h]; exact List.mem_cons_of_mem _ hlo
      · rcases max_choice a hi with h | h
        · rw [h]; exact List.mem_cons_self _ _
        · rw [h]; exact List.mem_cons_of_mem _ hhi
      · intro x hx
        rcases List.mem_cons.mp hx with rfl | hx
        · exact ⟨min_le_left _ _, le_max_left _ _⟩
        · exact ⟨le_trans (min_le_right _ _) (hb x hx).1,
            le_trans (hb x hx).2 (le_max_right _ _)⟩

end Indicators

end signalops

namespace signalops

namespace Indicators

variable {α : Type} [LinearOrderedField α]

theorem simd_sum_tail_eq_add_sum (data : List α) (simd_size : Nat) (sum : α) (k : Nat) :
    simd_sum_tail data simd_size sum k
      = sum + ∑ i in Finset.range k, data.getD (simd_size + i) 0 := by
  induction k with
  | zero => simp [simd_sum_tail]
  | succ k ih =>
    rw [simd_sum_tail, ih, Finset.sum_range_succ]
    ring

/-- The shape of `simd_sum`: four strided lane sums over the first `size - size % 4`
elements, added horizontally, then the `size % 4` remaining elements. -/
theorem simd_sum_shape (data : List α) (size : Nat) :
    simd_sum data size
      = (∑ i in Finset.range ((size - size % 4) / 4), data.getD (4 * i) 0)
        + (∑ i in Finset.range ((size - size % 4) / 4), data.getD (4 * i + 1) 0)
        + (∑ i in Finset.range ((size - size % 4) / 4), data.getD (4 * i + 2) 0)
        + (∑ i in Finset.range ((size - size % 4) / 4), data.getD (4 * i + 3) 0)
        + ∑ i in Finset.range (size % 4), data.getD (size - size % 4 + i) 0 := by
  obtain ⟨h0, h1, h2, h3⟩ := simd_sum_vec_lanes data ((size - size % 4) / 4)
  have hrem : size - (size - size % 4) = size % 4 := by
    have := Nat.mod_le size 4
    omega
  unfold simd_sum
  simp only
  rw [simd_sum_tail_eq_add_sum, h0, h1, h2, h3, hrem]

end Indicators

end signalops

/-! ## Order book: the claims -/

namespace signalops

open OrderBookSide

/-- Claim C1, evaluated on the code: after `update_ask(101, 3, 1)` and `update_ask(102, 2, 2)`
on a fresh book the ask side is stored highest price first, so it is not ascending, and
`get_best_ask()` returns 102 although the lowest ask present is 101. -/
theorem best_ask_is_highest_after_two_asks :
    ((OrderBook.new "BTC-USD").run [.update_ask 101 3 1, .update_ask 102 2 2]).asks_.levels
        = [⟨102, 2, 2⟩, ⟨101, 3, 1⟩] ∧
    ¬ StrictAsc
      ((OrderBook.new "BTC-USD").run [.update_ask 101 3 1, .update_ask 102 2 2]).asks_.levels ∧
    ((OrderBook.new "BTC-USD").run [.update_ask 101 3 1, .update_ask 102 2 2]).get_best_ask
        = 102 ∧
    (∃ level ∈
      ((OrderBook.new "BTC-USD").run [.update_ask 101 3 1, .update_ask 102 2 2]).asks_.levels,
      level.price <
        ((OrderBook.new "BTC-USD").run [.update_ask 101 3 1, .update_ask 102 2 2]).get_best_ask) := by
  refine ⟨by decide, ?_, by decide, ⟨⟨101, 3, 1⟩, by decide, by decide⟩⟩
  unfold StrictAsc
  decide

/-- Claim C9: for any book, `update_bid(p, 0, t)` (resp. `update_ask`) keeps exactly the
levels of that side whose price is not `p`, unchanged and in the same order, leaves the
opposite side unchanged, and the depth-volume sums afterwards run over the remaining
levels only; `update_bid(100, 5, 1)` then `update_bid(100, 0, 2)` on a fresh book leaves
the bid side empty with `get_best_bid() = 0`. -/
theorem update_with_zero_quantity_removes_level (b : OrderBook) (p : ℚ) (t : Nat) :
    ((b.update_bid p 0 t).bids_.levels
        = b.bids_.levels.filter (fun level => !decide (level.price = p)) ∧
      (∀ level ∈ (b.update_bid p 0 t).bids_.levels, level.price ≠ p) ∧
      (b.update_bid p 0 t).asks_ = b.asks_ ∧
      ∀ depth : Int, (b.update_bid p 0 t).get_bid_volume depth
        = (((b.bids_.levels.filter (fun level => !decide (level.price = p))).take
            depth.toNat).map (·.quantity)).sum) ∧
    ((b.update_ask p 0 t).asks_.levels
        = b.asks_.levels.filter (fun level => !decide (level.price = p)) ∧
      (∀ level ∈ (b.update_ask p 0 t).asks_.levels, level.price ≠ p) ∧
      (b.update_ask p 0 t).bids_ = b.bids_ ∧
      ∀ depth : Int, (b.update_ask p 0 t).get_ask_volume depth
        = (((b.asks_.levels.filter (fun level => !decide (level.price = p))).take
            depth.toNat).map (·.quantity)).sum) ∧
    ((((OrderBook.new b.symbol_).update_bid 100 5 1).update_bid 100 0 2).bids_.levels = [] ∧
      (((OrderBook.new b.symbol_).update_bid 100 5 1).update_bid 100 0 2).get_best_bid = 0) := by
  have hrm : ∀ s : OrderBookSide, (s.update_level p 0 t).levels
      = s.levels.filter (fun level => !decide (level.price = p)) := by
    intro s
    simp [update_level, remove_level]
  have hne : ∀ s : OrderBookSide, ∀ level ∈ (s.update_level p 0 t).levels, level.price ≠ p := by
    intro s level hl
    rw [hrm] at hl
    simpa using (List.mem_filter.mp hl).2
  refine ⟨⟨hrm _, hne _, rfl, ?_⟩, ⟨hrm _, hne _, rfl, ?_⟩, rfl, rfl⟩
  · intro depth
    unfold OrderBook.get_bid_volume
    simp only [OrderBook.update_bid]
    rw [volume_eq_take, hrm]
  · intro depth
    unfold OrderBook.get_ask_volume
    simp only [OrderBook.update_ask]
    rw [volume_eq_take, hrm]

end signalops

/-! ## Indicators: the claims -/

namespace signalops

namespace Indicators

variable {α : Type} [LinearOrderedField α]

/-- Claim C2: for `p ≥ 1`, `calculate_sma(prices, p)` is empty when `len(prices) < p`;
otherwise it has `len(prices) - p + 1` values and the value at index `i` is the sum of the
`p` prices of the window `prices[i .. i+p)` divided by `p`; the rolling-sum computation
agrees with the naive per-window recomputation. -/
theorem sma_is_window_mean (prices : List α) (p : Nat) (hp : 1 ≤ p) :
    calculate_sma prices p = sma_naive prices p ∧
    (prices.length < p → calculate_sma prices p = []) ∧
    (p ≤ prices.length →
      (calculate_sma prices p).length = prices.length - p + 1 ∧
      ∀ i, i < prices.length - p + 1 →
        (window prices i p).length = p ∧ (p : α) ≠ 0 ∧
        (calculate_sma prices p)[i]? = some ((window prices i p).sum / (p : α))) := by
  refine ⟨calculate_sma_eq_naive prices p, ?_, ?_⟩
  · intro h
    simp [calculate_sma, h]
  · intro h
    rw [calculate_sma_eq_naive]
    refine ⟨by rw [sma_naive_length]; omega, ?_⟩
    intro i hi
    refine ⟨window_length prices i p (by omega), ?_, ?_⟩
    · exact Nat.cast_ne_zero.mpr (by omega)
    · have hi' : i < prices.length + 1 - p := by omega
      simp [sma_naive, List.getElem?_range hi']

/-- Claim C3: `calculate_ema` of an empty sequence is empty; for `p ≥ 1` and a non-empty
sequence it has `len(prices)` values, the first is the mean of the first
`min(p, len(prices))` prices, and for `i ≥ 1`
`ema[i] = a * (prices[i] - ema[i-1]) + ema[i-1]` with `a = 2 / (p + 1)`. -/
theorem ema_seed_and_recurrence (prices : List α) (p : Nat) :
    calculate_ema ([] : List α) p = [] ∧
    (1 ≤ p → prices ≠ [] →
      (calculate_ema prices p).length = prices.length ∧
      ((min p prices.length : Nat) : α) ≠ 0 ∧ (p : α) + 1 ≠ 0 ∧
      (calculate_ema prices p)[0]?
        = some ((prices.take (min p prices.length)).sum / ((min p prices.length : Nat) : α)) ∧
      ∀ i, 1 ≤ i → i < prices.length →
        (calculate_ema prices p).getD i 0
          = 2 / ((p : α) + 1) * (prices.getD i 0 - (calculate_ema prices p).getD (i - 1) 0)
            + (calculate_ema prices p).getD (i - 1) 0) := by
  refine ⟨by simp [calculate_ema], ?_⟩
  intro hp hne
  have hlen : 0 < prices.length := List.length_pos.mpr hne
  have hl := calculate_ema_length prices p
  refine ⟨hl, ?_, ?_, ?_, ?_⟩
  · exact Nat.cast_ne_zero.mpr (by omega)
  · have : (0 : α) ≤ (p : α) := Nat.cast_nonneg p
    intro h0
    linarith
  · have h0 := calculate_ema_getD prices p 0 hlen
    rw [List.getD_eq_getElem?_getD, List.getElem?_eq_getElem (by omega)] at h0
    rw [List.getElem?_eq_getElem (by omega)]
    simp only [Option.getD_some] at h0
    rw [h0]
    simp [ema_loop, simd_sum_eq]
  · intro i hi1 hilt
    obtain ⟨j, rfl⟩ : ∃ j, i = j + 1 := ⟨i - 1, by omega⟩
    rw [calculate_ema_getD prices p (j + 1) hilt, Nat.add_sub_cancel,
      calculate_ema_getD prices p j (by omega)]
    simp only [ema_loop]
    ring

/-- Claim C4: for `p ≥ 1` and `len(prices) ≥ p + 1`, every value of `calculate_rsi` lies in
`[0, 100]` (and there are `len(prices) - 1` of them); whenever the average loss at an index
is not zero it is positive and the divisor `1 + avg_gain / avg_loss` is at least 1, so no
division by zero occurs. -/
theorem rsi_in_range (prices : List α) (p : Nat) (hp : 1 ≤ p)
    (hlen : p + 1 ≤ prices.length) :
    (calculate_rsi prices p).length = prices.length - 1 ∧
    (∀ x ∈ calculate_rsi prices p, 0 ≤ x ∧ x ≤ 100) ∧
    (∀ i, (calculate_ema (rsi_losses prices) p).getD i 0 ≠ 0 →
      0 < (calculate_ema (rsi_losses prices) p).getD i 0 ∧
      1 ≤ 1 + (calculate_ema (rsi_gains prices) p).getD i 0
              / (calculate_ema (rsi_losses prices) p).getD i 0) := by
  have hg := calculate_ema_nonneg (rsi_gains prices) p hp (rsi_gains_nonneg prices)
  have hl := calculate_ema_nonneg (rsi_losses prices) p hp (rsi_losses_nonneg prices)
  have hnot : ¬ prices.length < (p + 1) % 2 ^ 64 := by
    have := Nat.mod_le (p + 1) (2 ^ 64)
    omega
  refine ⟨?_, ?_, ?_⟩
  · unfold calculate_rsi
    rw [if_neg hnot]
    simp [calculate_ema_length, rsi_gains_length]
  · intro x hx
    unfold calculate_rsi at hx
    rw [if_neg hnot] at hx
    obtain ⟨i, _, rfl⟩ := List.mem_map.mp hx
    exact rsi_value_bounds _ _ (hg i) (hl i)
  · intro i hi
    have hpos := lt_of_le_of_ne (hl i) (Ne.symm hi)
    exact ⟨hpos, one_le_one_add_rs _ _ (hg i) hpos⟩

/-- Claim C5: `calculate_macd` returns three empty sequences when `len(prices) < slow`;
otherwise, for periods `≥ 1` (so that no multiplier `2 / (period + 1)` divides by zero),
the three sequences have length `len(prices)`,
`macd_line[i] = ema_fast[i] - ema_slow[i]`, `signal_line = calculate_ema(macd_line, signal)`
and `histogram[i] = macd_line[i] - signal_line[i]`. -/
theorem macd_lines (prices : List α) (fast slow signal : Nat) :
    (prices.length < slow →
      (calculate_macd prices fast slow signal).macd_line = [] ∧
      (calculate_macd prices fast slow signal).signal_line = [] ∧
      (calculate_macd prices fast slow signal).histogram = []) ∧
    (1 ≤ fast → 1 ≤ slow → 1 ≤ signal → slow ≤ prices.length →
      ((fast : α) + 1 ≠ 0 ∧ (slow : α) + 1 ≠ 0 ∧ (signal : α) + 1 ≠ 0) ∧
      (calculate_macd prices fast slow signal).macd_line.length = prices.length ∧
      (calculate_macd prices fast slow signal).signal_line.length = prices.length ∧
      (calculate_macd prices fast slow signal).histogram.length = prices.length ∧
      (∀ i, i < prices.length →
        (calculate_macd prices fast slow signal).macd_line.getD i 0
          = (calculate_ema prices fast).getD i 0 - (calculate_ema prices slow).getD i 0) ∧
      (calculate_macd prices fast slow signal).signal_line
        = calculate_ema (calculate_macd prices fast slow signal).macd_line signal ∧
      (∀ i, i < prices.length →
        (calculate_macd prices fast slow signal).histogram.getD i 0
          = (calculate_macd prices fast slow signal).macd_line.getD i 0
            - (calculate_macd prices fast slow signal).signal_line.getD i 0)) := by
  have hdiv : ∀ n : Nat, 1 ≤ n → (n : α) + 1 ≠ 0 := by
    intro n hn
    have h1 : (1 : α) ≤ (n : α) := by exact_mod_cast hn
    intro h0
    linarith
  refine ⟨?_, ?_⟩
  · intro h
    simp [calculate_macd, h]
  · intro hfast hslow hsignal h
    refine ⟨⟨hdiv fast hfast, hdiv slow hslow, hdiv signal hsignal⟩, ?_⟩
    have hnot : ¬ prices.length < slow := by omega
    simp only [calculate_macd, hnot, if_false, calculate_ema_length, List.length_map,
      List.length_range, min_self, true_and]
    refine ⟨?_, ?_⟩
    · intro i hi
      exact getD_map_range _ _ _ hi
    · intro i hi
      exact getD_map_range _ _ _ hi

/-- Claim C6: `calculate_bollinger_bands` returns three empty sequences when
`len(prices) < p`; otherwise, for `p ≥ 1`, the three bands have length
`len(prices) - p + 1`, `middle = calculate_sma(prices, p)`, and at every index `i`
`upper[i] = middle[i] + k * s_i`, `lower[i] = middle[i] - k * s_i`,
`upper[i] - lower[i] = 2 * k * s_i`, where `s_i ≥ 0` and `s_i ^ 2` is the sum of squared
deviations of the window `prices[i .. i+p)` about `middle[i]` divided by `p`. -/
theorem bollinger_bands_about_sma (sqrt : α → α) (hsqrt_nonneg : ∀ x, 0 ≤ sqrt x)
    (hsqrt : ∀ x, 0 ≤ x → sqrt x * sqrt x = x)
    (prices : List α) (p : Nat) (k : α) :
    (prices.length < p →
      (calculate_bollinger_bands sqrt prices p k).upper = [] ∧
      (calculate_bollinger_bands sqrt prices p k).middle = [] ∧
      (calculate_bollinger_bands sqrt prices p k).lower = []) ∧
    (1 ≤ p → p ≤ prices.length →
      (calculate_bollinger_bands sqrt prices p k).upper.length = prices.length - p + 1 ∧
      (calculate_bollinger_bands sqrt prices p k).middle.length = prices.length - p + 1 ∧
      (calculate_bollinger_bands sqrt prices p k).lower.length = prices.length - p + 1 ∧
      (calculate_bollinger_bands sqrt prices p k).middle = calculate_sma prices p ∧
      ∀ i, i < prices.length - p + 1 →
        (p : α) ≠ 0 ∧
        (calculate_bollinger_bands sqrt prices p k).middle.getD i 0
          = (window prices i p).sum / (p : α) ∧
        (calculate_bollinger_bands sqrt prices p k).upper.getD i 0
          = (calculate_bollinger_bands sqrt prices p k).middle.getD i 0
            + k * sqrt (window_variance prices i p
                ((calculate_bollinger_bands sqrt prices p k).middle.getD i 0)) ∧
        (calculate_bollinger_bands sqrt prices p k).lower.getD i 0
          = (calculate_bollinger_bands sqrt prices p k).middle.getD i 0
            - k * sqrt (window_variance prices i p
                ((calculate_bollinger_bands sqrt prices p k).middle.getD i 0)) ∧
        (calculate_bollinger_bands sqrt prices p k).upper.getD i 0
            - (calculate_bollinger_bands sqrt prices p k).lower.getD i 0
          = 2 * k * sqrt (window_variance prices i p
                ((calculate_bollinger_bands sqrt prices p k).middle.getD i 0)) ∧
        0 ≤ sqrt (window_variance prices i p
                ((calculate_bollinger_bands sqrt prices p k).middle.getD i 0)) ∧
        sqrt (window_variance prices i p
                ((calculate_bollinger_bands sqrt prices p k).middle.getD i 0))
            * sqrt (window_variance prices i p
                ((calculate_bollinger_bands sqrt prices p k).middle.getD i 0))
          = window_variance prices i p
              ((calculate_bollinger_bands sqrt prices p k).middle.getD i 0)) := by
  constructor
  · intro h
    simp [calculate_bollinger_bands, h]
  · intro hp h
    have hnot : ¬ prices.length < p := by omega
    have hsma_len : (calculate_sma prices p).length = prices.length - p + 1 := by
      rw [calculate_sma_eq_naive, sma_naive_length]; omega
    have hmid : (calculate_bollinger_bands sqrt prices p k).middle = calculate_sma prices p := by
      simp [calculate_bollinger_bands, hnot]
    have hupper : (calculate_bollinger_bands sqrt prices p k).upper
        = (List.range (calculate_sma prices p).length).map fun i =>
            (calculate_sma prices p).getD i 0
              + k * simd_std_dev sqrt (prices.drop i) p ((calculate_sma prices p).getD i 0) := by
      simp [calculate_bollinger_bands, hnot]
    have hlower : (calculate_bollinger_bands sqrt prices p k).lower
        = (List.range (calculate_sma prices p).length).map fun i =>
            (calculate_sma prices p).getD i 0
              - k * simd_std_dev sqrt (prices.drop i) p ((calculate_sma prices p).getD i 0) := by
      simp [calculate_bollinger_bands, hnot]
    rw [hmid, hupper, hlower]
    refine ⟨by simp [hsma_len], hsma_len, by simp [hsma_len], rfl, ?_⟩
    intro i hi
    have hstd : ∀ mean : α, simd_std_dev sqrt (prices.drop i) p mean
        = sqrt (window_variance prices i p mean) := by
      intro mean
      rw [simd_std_dev_eq sqrt (prices.drop i) p mean (by rw [List.length_drop]; omega)]
      rfl
    rw [getD_map_range _ _ _ (by omega), getD_map_range _ _ _ (by omega), hstd]
    refine ⟨Nat.cast_ne_zero.mpr (by omega), ?_, rfl, rfl, by ring, hsqrt_nonneg _,
      hsqrt _ (window_variance_nonneg _ _ _ _)⟩
    rw [calculate_sma_eq_naive, sma_naive_getD prices p i (by omega)]

end Indicators

end signalops

/-! ## Order book queries: the claims -/

namespace signalops

/-- Claim C11, as stated, fails: with a bid at price 0 and an ask at 101 both sides are
non-empty, yet `get_mid_price()` returns 0 and not `(0 + 101) / 2`. -/
theorem mid_price_zero_on_populated_book :
    ((OrderBook.new "BTC-USD").run [.update_bid 0 5 1, .update_ask 101 3 2]).bids_.levels ≠ [] ∧
    ((OrderBook.new "BTC-USD").run [.update_bid 0 5 1, .update_ask 101 3 2]).asks_.levels ≠ [] ∧
    ((OrderBook.new "BTC-USD").run [.update_bid 0 5 1, .update_ask 101 3 2]).get_mid_price = 0 ∧
    (((OrderBook.new "BTC-USD").run [.update_bid 0 5 1, .update_ask 101 3 2]).get_best_bid
      + ((OrderBook.new "BTC-USD").run [.update_bid 0 5 1, .update_ask 101 3 2]).get_best_ask) / 2
      = 101 / 2 := by
  have hb : ((OrderBook.new "BTC-USD").run
      [.update_bid 0 5 1, .update_ask 101 3 2]).get_best_bid = 0 := by decide
  have ha : ((OrderBook.new "BTC-USD").run
      [.update_bid 0 5 1, .update_ask 101 3 2]).get_best_ask = 101 := by decide
  refine ⟨by decide, by decide, by decide, ?_⟩
  rw [hb, ha]
  norm_num

/-- Claim C11, amended: `get_mid_price()` returns 0 when `get_best_bid()` or
`get_best_ask()` is 0, which includes an empty bid or ask side, and otherwise
`(get_best_bid() + get_best_ask()) / 2`; a fresh book after `update_bid(100, 5, 1)` and
`update_ask(101, 3, 2)` gives 100.5. -/
theorem mid_price_with_zero_sentinel (b : OrderBook) :
    (b.bids_.levels = [] ∨ b.asks_.levels = [] → b.get_mid_price = 0) ∧
    (b.get_best_bid = 0 ∨ b.get_best_ask = 0 → b.get_mid_price = 0) ∧
    (b.get_best_bid ≠ 0 → b.get_best_ask ≠ 0 →
      b.get_mid_price = (b.get_best_bid + b.get_best_ask) / 2) ∧
    (((OrderBook.new b.symbol_).update_bid 100 5 1).update_ask 101 3 2).get_mid_price
      = 201 / 2 := by
  have hzero : b.get_best_bid = 0 ∨ b.get_best_ask = 0 → b.get_mid_price = 0 := by
    intro h
    simp [OrderBook.get_mid_price, h]
  refine ⟨?_, hzero, ?_, ?_⟩
  · rintro (h | h)
    · exact hzero (Or.inl (by simp [OrderBook.get_best_bid, get_best_of_nil h]))
    · exact hzero (Or.inr (by simp [OrderBook.get_best_ask, get_best_of_nil h]))
  · intro hb ha
    simp [OrderBook.get_mid_price, hb, ha]
  · have hb : (((OrderBook.new b.symbol_).update_bid 100 5 1).update_ask 101 3 2).get_best_bid
        = 100 := rfl
    have ha : (((OrderBook.new b.symbol_).update_bid 100 5 1).update_ask 101 3 2).get_best_ask
        = 101 := rfl
    simp only [OrderBook.get_mid_price, hb, ha]
    norm_num

/-- Claim C12, as stated, fails: with a bid at 5 and an ask at price 0 both sides are
non-empty and the book is crossed, yet `get_spread()` returns 0, which is neither
`get_best_ask() - get_best_bid() = -5` nor negative. -/
theorem spread_zero_on_crossed_book :
    ((OrderBook.new "BTC-USD").run [.update_bid 5 5 1, .update_ask 0 3 2]).bids_.levels ≠ [] ∧
    ((OrderBook.new "BTC-USD").run [.update_bid 5 5 1, .update_ask 0 3 2]).asks_.levels ≠ [] ∧
    ((OrderBook.new "BTC-USD").run [.update_bid 5 5 1, .update_ask 0 3 2]).get_best_bid
      > ((OrderBook.new "BTC-USD").run [.update_bid 5 5 1, .update_ask 0 3 2]).get_best_ask ∧
    ((OrderBook.new "BTC-USD").run [.update_bid 5 5 1, .update_ask 0 3 2]).get_spread = 0 ∧
    ((OrderBook.new "BTC-USD").run [.update_bid 5 5 1, .update_ask 0 3 2]).get_best_ask
      - ((OrderBook.new "BTC-USD").run [.update_bid 5 5 1, .update_ask 0 3 2]).get_best_bid
      = -5 := by
  have hb : ((OrderBook.new "BTC-USD").run
      [.update_bid 5 5 1, .update_ask 0 3 2]).get_best_bid = 5 := by decide
  have ha : ((OrderBook.new "BTC-USD").run
      [.update_bid 5 5 1, .update_ask 0 3 2]).get_best_ask = 0 := by decide
  refine ⟨by decide, by decide, ?_, by decide, ?_⟩
  · rw [hb, ha]; norm_num
  · rw [hb, ha]; norm_num

/-- Claim C12, amended: `get_spread()` returns 0 when `get_best_bid()` or `get_best_ask()`
is 0, which includes an empty bid or ask side, and otherwise
`get_best_ask() - get_best_bid()` with no validation, so that a crossed book whose two best
prices are non-zero has a negative spread. -/
theorem spread_with_zero_sentinel (b : OrderBook) :
    (b.bids_.levels = [] ∨ b.asks_.levels = [] → b.get_spread = 0) ∧
    (b.get_best_bid = 0 ∨ b.get_best_ask = 0 → b.get_spread = 0) ∧
    (b.get_best_bid ≠ 0 → b.get_best_ask ≠ 0 →
      b.get_spread = b.get_best_ask - b.get_best_bid) ∧
    (b.get_best_bid ≠ 0 → b.get_best_ask ≠ 0 → b.get_best_bid > b.get_best_ask →
      b.get_spread < 0) := by
  have hzero : b.get_best_bid = 0 ∨ b.get_best_ask = 0 → b.get_spread = 0 := by
    intro h
    simp [OrderBook.get_spread, h]
  have hval : b.get_best_bid ≠ 0 → b.get_best_ask ≠ 0 →
      b.get_spread = b.get_best_ask - b.get_best_bid := by
    intro hb ha
    simp [OrderBook.get_spread, hb, ha]
  refine ⟨?_, hzero, hval, ?_⟩
  · rintro (h | h)
    · exact hzero (Or.inl (by simp [OrderBook.get_best_bid, get_best_of_nil h]))
    · exact hzero (Or.inr (by simp [OrderBook.get_best_ask, get_best_of_nil h]))
  · intro hb ha hcross
    rw [hval hb ha]
    linarith

/-- Claim C14, as stated, fails: the reachable book after `update_bid(100, -5, 1)` and
`update_ask(101, 3, 2)` has order imbalance 4, outside `[-1, 1]`. -/
theorem imbalance_exceeds_one_with_negative_quantity :
    ((OrderBook.new "BTC-USD").run [.update_bid 100 (-5) 1, .update_ask 101 3 2]).Reachable ∧
    ((OrderBook.new "BTC-USD").run
      [.update_bid 100 (-5) 1, .update_ask 101 3 2]).get_order_imbalance = 4 ∧
    ¬ ((OrderBook.new "BTC-USD").run
      [.update_bid 100 (-5) 1, .update_ask 101 3 2]).get_order_imbalance ≤ 1 := by
  have hb : ((OrderBook.new "BTC-USD").run
      [.update_bid 100 (-5) 1, .update_ask 101 3 2]).get_bid_volume 10 = -5 := by
    norm_num [OrderBook.get_bid_volume, OrderBook.volume_loop, OrderBook.run, OrderBook.step,
      OrderBook.update_bid, OrderBook.update_ask, OrderBook.new, OrderBookSide.update_level,
      OrderBookSide.find_if, OrderBookSide.add_level, lower_bound, lower_bound_loop]
  have ha : ((OrderBook.new "BTC-USD").run
      [.update_bid 100 (-5) 1, .update_ask 101 3 2]).get_ask_volume 10 = 3 := by
    norm_num [OrderBook.get_ask_volume, OrderBook.volume_loop, OrderBook.run, OrderBook.step,
      OrderBook.update_bid, OrderBook.update_ask, OrderBook.new, OrderBookSide.update_level,
      OrderBookSide.find_if, OrderBookSide.add_level, lower_bound, lower_bound_loop]
  have hv : ((OrderBook.new "BTC-USD").run
      [.update_bid 100 (-5) 1, .update_ask 101 3 2]).get_order_imbalance = 4 := by
    simp only [OrderBook.get_order_imbalance, hb, ha]
    norm_num
  refine ⟨⟨_, _, rfl⟩, hv, ?_⟩
  rw [hv]
  norm_num

/-- Claim C14, amended: in exact arithmetic (prices and quantities are ordinary numbers and
the sums of quantities do not overflow), in every book state whose levels, on both sides,
have non-negative quantities, `get_order_imbalance()` lies in `[-1, 1]`; every state reached
from a fresh book by `update_bid` / `update_ask` calls with quantities `≥ 0` and `clear`
calls is such a state; and the imbalance is 0 when both sides are empty. -/
theorem imbalance_in_range_in_exact_arithmetic (b : OrderBook) :
    (b.bids_.levels = [] → b.asks_.levels = [] → b.get_order_imbalance = 0) ∧
    ((∀ level ∈ b.bids_.levels, 0 ≤ level.quantity) →
      (∀ level ∈ b.asks_.levels, 0 ≤ level.quantity) →
      -1 ≤ b.get_order_imbalance ∧ b.get_order_imbalance ≤ 1) ∧
    (∀ (symbol : String) (ops : List Op), (∀ op ∈ ops, op.quantity_nonneg) →
      (∀ level ∈ ((OrderBook.new symbol).run ops).bids_.levels, 0 ≤ level.quantity) ∧
      (∀ level ∈ ((OrderBook.new symbol).run ops).asks_.levels, 0 ≤ level.quantity) ∧
      -1 ≤ ((OrderBook.new symbol).run ops).get_order_imbalance ∧
      ((OrderBook.new symbol).run ops).get_order_imbalance ≤ 1) := by
  refine ⟨?_, imbalance_bounds_of_nonneg b, ?_⟩
  · intro hb ha
    simp [OrderBook.get_order_imbalance, OrderBook.get_bid_volume, OrderBook.get_ask_volume,
      hb, ha, volume_loop_nil]
  · intro symbol ops hops
    have hq := run_quantity_nonneg ops hops (OrderBook.new symbol)
      ⟨by intro level hl; simp [OrderBook.new] at hl,
        by intro level hl; simp [OrderBook.new] at hl⟩
    exact ⟨hq.1, hq.2, imbalance_bounds_of_nonneg _ hq.1 hq.2⟩

/-- Claim C13, evaluated on the code: after `update_ask(101, 100, 1)` and
`update_ask(102, 1, 2)` the ask levels are stored `[102 × 1, 101 × 100]`, so
`get_ask_volume(1)` returns 1, the quantity of the ask farthest from the lowest ask 101,
whose quantity 100 is left out. For every book and `depth ≥ 0` both volume queries return
the sum of the quantities of the first `min(depth, number of levels)` stored levels: 0 on
an empty side and for depth 0, the whole side when `depth` is at least the number of
levels. -/
theorem ask_depth_volume_takes_highest_asks (b : OrderBook) (depth : Int) :
    (((OrderBook.new "BTC-USD").run [.update_ask 101 100 1, .update_ask 102 1 2]).asks_.levels
        = [⟨102, 1, 2⟩, ⟨101, 100, 1⟩] ∧
      ((OrderBook.new "BTC-USD").run
        [.update_ask 101 100 1, .update_ask 102 1 2]).get_ask_volume 1 = 1 ∧
      (∀ level ∈ ((OrderBook.new "BTC-USD").run
          [.update_ask 101 100 1, .update_ask 102 1 2]).asks_.levels, 101 ≤ level.price) ∧
      (∀ level ∈ ((OrderBook.new "BTC-USD").run
          [.update_ask 101 100 1, .update_ask 102 1 2]).asks_.levels,
        level.price = 101 → level.quantity = 100)) ∧
    (0 ≤ depth →
      (b.get_bid_volume depth
          = ((b.bids_.levels.take (min depth.toNat b.bids_.levels.length)).map
              (·.quantity)).sum ∧
        (b.bids_.levels = [] → b.get_bid_volume depth = 0) ∧
        b.get_bid_volume 0 = 0 ∧
        ((b.bids_.levels.length : Int) ≤ depth →
          b.get_bid_volume depth = (b.bids_.levels.map (·.quantity)).sum)) ∧
      (b.get_ask_volume depth
          = ((b.asks_.levels.take (min depth.toNat b.asks_.levels.length)).map
              (·.quantity)).sum ∧
        (b.asks_.levels = [] → b.get_ask_volume depth = 0) ∧
        b.get_ask_volume 0 = 0 ∧
        ((b.asks_.levels.length : Int) ≤ depth →
          b.get_ask_volume depth = (b.asks_.levels.map (·.quantity)).sum))) := by
  constructor
  · have hlv : ((OrderBook.new "BTC-USD").run [.update_ask 101 100 1, .update_ask 102 1 2])
        = ⟨"BTC-USD", ⟨[]⟩, ⟨[⟨102, 1, 2⟩, ⟨101, 100, 1⟩]⟩, 2⟩ := by decide
    rw [hlv]
    refine ⟨rfl, ?_, by decide, by decide⟩
    norm_num [OrderBook.get_ask_volume, OrderBook.volume_loop]
  · intro hdepth
    have side : ∀ s : OrderBookSide,
        (OrderBook.volume_loop s.levels (min depth (s.levels.length : Int)).toNat
          = ((s.levels.take (min depth.toNat s.levels.length)).map (·.quantity)).sum ∧
        (s.levels = [] →
          OrderBook.volume_loop s.levels (min depth (s.levels.length : Int)).toNat = 0) ∧
        OrderBook.volume_loop s.levels (min (0 : Int) (s.levels.length : Int)).toNat = 0 ∧
        ((s.levels.length : Int) ≤ depth →
          OrderBook.volume_loop s.levels (min depth (s.levels.length : Int)).toNat
            = (s.levels.map (·.quantity)).sum)) := by
      intro s
      refine ⟨volume_eq_take_min _ _, ?_, ?_, ?_⟩
      · intro h
        rw [h]
        exact volume_loop_nil _
      · rw [volume_eq_take]
        simp
      · intro h
        rw [volume_eq_take, List.take_of_length_le (by omega)]
    exact ⟨side b.bids_, side b.asks_⟩

end signalops

/-! ## Order book imbalance depth, timestamp and `clear`: the claims -/

namespace signalops

/-- Claim C15, as stated, fails: `get_order_imbalance()` has no depth argument. With bids
`100 × 5`, `99 × 1` and an ask `101 × 3` it returns `(6 - 3) / (6 + 3) = 1/3`, whereas the
quotient of the depth-1 volumes is `(5 - 3) / (5 + 3) = 1/4`. -/
theorem imbalance_ignores_caller_depth :
    ((OrderBook.new "BTC-USD").run
      [.update_bid 100 5 1, .update_bid 99 1 2, .update_ask 101 3 3]).get_order_imbalance
      = 1 / 3 ∧
    (((OrderBook.new "BTC-USD").run
        [.update_bid 100 5 1, .update_bid 99 1 2, .update_ask 101 3 3]).get_bid_volume 1
      - ((OrderBook.new "BTC-USD").run
        [.update_bid 100 5 1, .update_bid 99 1 2, .update_ask 101 3 3]).get_ask_volume 1)
      / (((OrderBook.new "BTC-USD").run
        [.update_bid 100 5 1, .update_bid 99 1 2, .update_ask 101 3 3]).get_bid_volume 1
      + ((OrderBook.new "BTC-USD").run
        [.update_bid 100 5 1, .update_bid 99 1 2, .update_ask 101 3 3]).get_ask_volume 1)
      = 1 / 4 := by
  have hlv : ((OrderBook.new "BTC-USD").run
      [.update_bid 100 5 1, .update_bid 99 1 2, .update_ask 101 3 3])
      = ⟨"BTC-USD", ⟨[⟨100, 5, 1⟩, ⟨99, 1, 2⟩]⟩, ⟨[⟨101, 3, 3⟩]⟩, 3⟩ := by decide
  rw [hlv]
  constructor
  · norm_num [OrderBook.get_order_imbalance, OrderBook.get_bid_volume,
      OrderBook.get_ask_volume, OrderBook.volume_loop]
  · norm_num [OrderBook.get_bid_volume, OrderBook.get_ask_volume, OrderBook.volume_loop]

/-- Claim C15, amended: the order imbalance is taken over the top 10 levels of each side
(a fixed depth, `get_order_imbalance()` has no depth argument): with `B` and `A` the bid and
ask depth volumes at depth 10 it equals `(B - A) / (B + A)`, and is 0 if `B + A = 0`, in
particular if both volumes are zero. A fresh book after `update_bid(100, 5, 1)` and
`update_ask(101, 3, 2)` gives `(5 - 3) / (5 + 3) = 0.25`. -/
theorem imbalance_at_depth_ten (b : OrderBook) :
    (b.get_bid_volume 10 + b.get_ask_volume 10 ≠ 0 →
      b.get_order_imbalance
        = (b.get_bid_volume 10 - b.get_ask_volume 10)
          / (b.get_bid_volume 10 + b.get_ask_volume 10)) ∧
    (b.get_bid_volume 10 + b.get_ask_volume 10 = 0 → b.get_order_imbalance = 0) ∧
    (b.get_bid_volume 10 = 0 → b.get_ask_volume 10 = 0 → b.get_order_imbalance = 0) ∧
    b.get_bid_volume 10
      = ((b.bids_.levels.take (min 10 b.bids_.levels.length)).map (·.quantity)).sum ∧
    b.get_ask_volume 10
      = ((b.asks_.levels.take (min 10 b.asks_.levels.length)).map (·.quantity)).sum ∧
    (((OrderBook.new b.symbol_).update_bid 100 5 1).update_ask 101 3 2).get_order_imbalance
      = 1 / 4 := by
  have hzero : b.get_bid_volume 10 + b.get_ask_volume 10 = 0 → b.get_order_imbalance = 0 := by
    intro h
    simp [OrderBook.get_order_imbalance, h]
  refine ⟨?_, hzero, ?_, ?_, ?_, ?_⟩
  · intro h
    simp [OrderBook.get_order_imbalance, h]
  · intro hb ha
    exact hzero (by rw [hb, ha]; norm_num)
  · exact volume_eq_take_min b.bids_.levels 10
  · exact volume_eq_take_min b.asks_.levels 10
  · have hlv : (((OrderBook.new b.symbol_).update_bid 100 5 1).update_ask 101 3 2)
        = ⟨b.symbol_, ⟨[⟨100, 5, 1⟩]⟩, ⟨[⟨101, 3, 2⟩]⟩, 2⟩ := rfl
    rw [hlv]
    norm_num [OrderBook.get_order_imbalance, OrderBook.get_bid_volume,
      OrderBook.get_ask_volume, OrderBook.volume_loop]

/-- Claim C18: after `update_bid(p, q, ts)` or `update_ask(p, q, ts)` on any book,
`last_update_ns()` is `ts`; this covers a call that rewrites a level with the values it
already has and a call with `q = 0` on an absent price, both of which leave the levels as
they were. -/
theorem update_sets_last_update_ns (b : OrderBook) (p q : ℚ) (ts : Nat) :
    (b.update_bid p q ts).last_update_ns = ts ∧
    (b.update_ask p q ts).last_update_ns = ts ∧
    (((OrderBook.new b.symbol_).update_bid 100 5 ts).update_bid 100 5 ts).bids_
        = ((OrderBook.new b.symbol_).update_bid 100 5 ts).bids_ ∧
    (((OrderBook.new b.symbol_).update_bid 100 5 ts).update_bid 100 5 ts).last_update_ns
        = ts ∧
    ((OrderBook.new b.symbol_).update_ask 100 0 ts).asks_ = (OrderBook.new b.symbol_).asks_ ∧
    ((OrderBook.new b.symbol_).update_ask 100 0 ts).last_update_ns = ts :=
  ⟨rfl, rfl, rfl, rfl, rfl, rfl⟩

/-- Claim C19: after `clear()` on any book both sides are empty, `last_update_ns()` is 0,
the symbol is unchanged, and `get_best_bid()`, `get_best_ask()`, `get_mid_price()`,
`get_spread()` and `get_order_imbalance()` all return 0. -/
theorem clear_resets_book (b : OrderBook) :
    b.clear.bids_.levels = [] ∧ b.clear.asks_.levels = [] ∧
    b.clear.last_update_ns = 0 ∧ b.clear.symbol = b.symbol ∧
    b.clear.get_best_bid = 0 ∧ b.clear.get_best_ask = 0 ∧
    b.clear.get_mid_price = 0 ∧ b.clear.get_spread = 0 ∧
    b.clear.get_order_imbalance = 0 := by
  refine ⟨rfl, rfl, rfl, rfl, rfl, rfl, ?_, ?_, ?_⟩
  · simp [OrderBook.get_mid_price, OrderBook.get_best_bid, OrderBook.clear,
      OrderBookSide.get_best]
  · simp [OrderBook.get_spread, OrderBook.get_best_bid, OrderBook.clear,
      OrderBookSide.get_best]
  · simp [OrderBook.get_order_imbalance, OrderBook.get_bid_volume, OrderBook.get_ask_volume,
      OrderBook.clear, volume_loop_nil]

end signalops

/-! ## RSI guard and values, period 0: the claims -/

namespace signalops

namespace Indicators

variable {α : Type} [LinearOrderedField α]

/-- Claim C16, evaluated on the code: whenever `p + 1` does not wrap (`p + 1 < 2 ^ 64`),
`calculate_rsi(prices, p)` is empty for `len(prices) < p + 1`, and for `p ≥ 1` and
`len(prices) ≥ p + 1` it has `len(prices) - 1` values given by the RSI formula on
`calculate_ema(gains, p)` and `calculate_ema(losses, p)`, with
`gains[j] = max(prices[j+1] - prices[j], 0)` and `losses[j] = max(prices[j] - prices[j+1], 0)`.
At `p = 2 ^ 64 - 1` the guard `period + 1` wraps to 0: three prices, fewer than `p + 1`,
give two values, the first being `200/3`, instead of an empty sequence. -/
theorem rsi_guard_and_values (prices : List α) (p : Nat) :
    (p + 1 < 2 ^ 64 → prices.length < p + 1 → calculate_rsi prices p = []) ∧
    (1 ≤ p → p + 1 ≤ prices.length →
      (calculate_rsi prices p).length = prices.length - 1 ∧
      (∀ j, j + 1 < prices.length →
        (rsi_gains prices).getD j 0 = max (prices.getD (j + 1) 0 - prices.getD j 0) 0 ∧
        (rsi_losses prices).getD j 0 = max (prices.getD j 0 - prices.getD (j + 1) 0) 0) ∧
      ∀ i, i < prices.length - 1 →
        (calculate_rsi prices p).getD i 0
          = if (calculate_ema (rsi_losses prices) p).getD i 0 = 0 then 100
            else 100 - 100 / (1 + (calculate_ema (rsi_gains prices) p).getD i 0
                                  / (calculate_ema (rsi_losses prices) p).getD i 0)) ∧
    (([100, 102, 101] : List ℚ).length < 18446744073709551615 + 1 ∧
      (calculate_rsi ([100, 102, 101] : List ℚ) 18446744073709551615).length = 2 ∧
      (calculate_rsi ([100, 102, 101] : List ℚ) 18446744073709551615).getD 0 0 = 200 / 3) := by
  refine ⟨?_, ?_, ?_⟩
  · intro hwrap hlen
    unfold calculate_rsi
    rw [Nat.mod_eq_of_lt hwrap, if_pos hlen]
  · intro hp hlen
    have hguard : ¬ prices.length < (p + 1) % 2 ^ 64 := by
      have := Nat.mod_le (p + 1) (2 ^ 64)
      omega
    obtain ⟨h1, h2⟩ := calculate_rsi_of_guard prices p hguard
    exact ⟨h1, fun j hj => ⟨rsi_gains_getD prices j hj, rsi_losses_getD prices j hj⟩, h2⟩
  · have hguard : ¬ ([100, 102, 101] : List ℚ).length
        < (18446744073709551615 + 1) % 2 ^ 64 := by decide
    obtain ⟨h1, h2⟩ := calculate_rsi_of_guard ([100, 102, 101] : List ℚ)
      18446744073709551615 hguard
    refine ⟨by decide, h1, ?_⟩
    rw [h2 0 (by decide), calculate_ema_getD _ _ 0 (by decide),
      calculate_ema_getD _ _ 0 (by decide)]
    norm_num [ema_loop, simd_sum, simd_sum_vec, simd_sum_tail, rsi_gains, rsi_losses,
      List.range']

theorem getElem?_of_getD {l : List α} {i : Nat} {v : α} (hi : i < l.length)
    (h : l.getD i 0 = v) : l[i]? = some v := by
  rw [List.getD_eq_getElem _ _ hi] at h
  rw [List.getElem?_eq_getElem hi, h]

/-- Claim C17: for `p ≥ 1` and `len(prices) ≥ p + 1`, if the prices are non-decreasing then
every value of `calculate_rsi(prices, p)` is 100; and if only the first `p` price changes
are non-negative, the first RSI value is 100. -/
theorem rsi_is_100_without_losses (prices : List α) (p : Nat) (hp : 1 ≤ p)
    (hlen : p + 1 ≤ prices.length) :
    (calculate_rsi prices p).length = prices.length - 1 ∧
    ((∀ j, j + 1 < prices.length → prices.getD j 0 ≤ prices.getD (j + 1) 0) →
      ∀ x ∈ calculate_rsi prices p, x = 100) ∧
    ((∀ j, j < p → prices.getD j 0 ≤ prices.getD (j + 1) 0) →
      (calculate_rsi prices p)[0]? = some 100) := by
  have hguard : ¬ prices.length < (p + 1) % 2 ^ 64 := by
    have := Nat.mod_le (p + 1) (2 ^ 64)
    omega
  obtain ⟨h1, h2⟩ := calculate_rsi_of_guard prices p hguard
  refine ⟨h1, ?_, ?_⟩
  · intro hmono x hx
    have hzero : ∀ y ∈ rsi_losses prices, y = 0 := by
      intro y hy
      obtain ⟨i, hi, hlt⟩ := List.getElem_of_mem hy
      rw [rsi_losses_length] at hi
      have hy' := rsi_losses_getD prices i (by omega)
      rw [List.getD_eq_getElem _ _ (by rw [rsi_losses_length]; exact hi), hlt] at hy'
      rw [hy']
      exact max_eq_right (by linarith [hmono i (by omega)])
    obtain ⟨i, hi, hlt⟩ := List.getElem_of_mem hx
    have hv := h2 i (by omega)
    rw [List.getD_eq_getElem _ _ hi, hlt, calculate_ema_zero _ p hzero i] at hv
    simpa using hv
  · intro hmono
    have hzero : ∀ y ∈ (rsi_losses prices).take (min p (rsi_losses prices).length),
        y = 0 := by
      intro y hy
      obtain ⟨i, hi, hlt⟩ := List.mem_take_iff_getElem.mp hy
      rw [rsi_losses_length] at hi
      have hy' := rsi_losses_getD prices i (by omega)
      rw [List.getD_eq_getElem _ _ (by rw [rsi_losses_length]; omega), hlt] at hy'
      rw [hy']
      exact max_eq_right (by linarith [hmono i (by omega)])
    have hv := h2 0 (by omega)
    rw [calculate_ema_head_zero _ p hzero] at hv
    exact getElem?_of_getD (by omega) (by simpa using hv)

/-- Claim C20, as stated, fails: nothing rejects `period = 0`; on three prices both
`calculate_sma(prices, 0)` and `calculate_ema(prices, 0)` evaluate a division by zero. -/
theorem period_zero_divides_by_zero :
    calculate_sma_checked ([100, 102, 101] : List ℚ) 0 = none ∧
    calculate_ema_checked ([100, 102, 101] : List ℚ) 0 = none := by
  constructor
  · simp [calculate_sma_checked, sma_loop_checked_zero]
  · simp [calculate_ema_checked, checked_div]

/-- Claim C20, amended: a configuration with `period = 0` is not rejected by these
functions: `calculate_sma(prices, 0)` divides by zero in the window mean for every price
sequence, and `calculate_ema(prices, 0)` divides by zero in the seed mean for every
non-empty one (its multiplier `2 / (0 + 1)` does not, and on an empty sequence it returns
empty without dividing); for every `period ≥ 1` neither function divides by zero. -/
theorem period_zero_reaches_division (prices : List α) (p : Nat) :
    calculate_sma_checked prices 0 = none ∧
    (prices ≠ [] → calculate_ema_checked prices 0 = none) ∧
    checked_div (2 : α) (((0 : Nat) : α) + 1) = some 2 ∧
    calculate_ema_checked ([] : List α) 0 = some [] ∧
    (1 ≤ p →
      calculate_sma_checked prices p = some (calculate_sma prices p) ∧
      calculate_ema_checked prices p = some (calculate_ema prices p)) := by
  refine ⟨?_, ?_, ?_, ?_, ?_⟩
  · simp [calculate_sma_checked, sma_loop_checked_zero]
  · intro hne
    have hlen : prices.length ≠ 0 := by
      intro h
      exact hne (List.length_eq_zero.mp h)
    simp [calculate_ema_checked, hlen, checked_div]
  · simp [checked_div]
  · simp [calculate_ema_checked]
  · intro hp
    have hpne : (p : α) ≠ 0 := Nat.cast_ne_zero.mpr (by omega)
    have hp1 : (p : α) + 1 ≠ 0 := by
      have : (0 : α) ≤ (p : α) := Nat.cast_nonneg p
      intro h0
      linarith
    constructor
    · unfold calculate_sma_checked calculate_sma
      by_cases h : prices.length < p
      · simp [h]
      · simp [h, sma_loop_checked_of_ne prices p hpne]
    · unfold calculate_ema_checked calculate_ema
      by_cases h : prices.length = 0
      · simp [h]
      · have hmin : ((min p prices.length : Nat) : α) ≠ 0 :=
          Nat.cast_ne_zero.mpr (by omega)
        simp only [h, if_false]
        rw [checked_div_of_ne _ _ hp1, checked_div_of_ne _ _ hmin]

end Indicators

end signalops

/-! ## Vectorized sum and bounds of the moving average: the claims -/

namespace signalops

namespace Indicators

variable {α : Type} [LinearOrderedField α]

/-- Claim C21: for `size ≤ len(data)`, `simd_sum(data, size)`, which adds four strided lane
sums over the first `size - size % 4` elements horizontally and then the remaining
`size % 4` elements one by one, equals the plain left-to-right sum of the `size` elements
`data[0 .. size)`; for `size = 0` the result is 0. -/
theorem simd_sum_agrees_with_scalar_sum (data : List α) (size : Nat)
    (hsize : size ≤ data.length) :
    simd_sum data size = scalar_sum data size ∧
    scalar_sum data size = (data.take size).sum ∧
    (data.take size).length = size ∧
    simd_sum data 0 = 0 ∧
    simd_sum data size
      = (∑ i in Finset.range ((size - size % 4) / 4), data.getD (4 * i) 0)
        + (∑ i in Finset.range ((size - size % 4) / 4), data.getD (4 * i + 1) 0)
        + (∑ i in Finset.range ((size - size % 4) / 4), data.getD (4 * i + 2) 0)
        + (∑ i in Finset.range ((size - size % 4) / 4), data.getD (4 * i + 3) 0)
        + ∑ i in Finset.range (size % 4), data.getD (size - size % 4 + i) 0 := by
  refine ⟨?_, scalar_sum_eq_take data size, ?_, ?_, simd_sum_shape data size⟩
  · rw [simd_sum_eq, scalar_sum_eq_take]
  · rw [List.length_take]
    omega
  · rw [simd_sum_eq]
    simp

/-- Claim C22: for `p ≥ 1` and a non-empty price sequence, `calculate_ema(prices, p)` has
`len(prices)` values and each lies between the least and the greatest input price (both
attained by some price), hence between any lower and upper bound of the prices; on a
constant sequence every value is that constant. -/
theorem ema_between_min_and_max (prices : List α) (p : Nat) (hp : 1 ≤ p)
    (hne : prices ≠ []) :
    (calculate_ema prices p).length = prices.length ∧
    (∃ lo ∈ prices, ∃ hi ∈ prices, (∀ x ∈ prices, lo ≤ x ∧ x ≤ hi) ∧
      ∀ y ∈ calculate_ema prices p, lo ≤ y ∧ y ≤ hi) ∧
    (∀ lo hi : α, (∀ x ∈ prices, lo ≤ x ∧ x ≤ hi) →
      ∀ y ∈ calculate_ema prices p, lo ≤ y ∧ y ≤ hi) ∧
    (∀ c : α, (∀ x ∈ prices, x = c) → ∀ y ∈ calculate_ema prices p, y = c) := by
  refine ⟨calculate_ema_length prices p, ?_, calculate_ema_bounds prices p hp, ?_⟩
  · obtain ⟨lo, hlo, hi, hhi, hb⟩ := exists_min_max prices hne
    exact ⟨lo, hlo, hi, hhi, hb, calculate_ema_bounds prices p hp lo hi hb⟩
  · intro c hc y hy
    have := calculate_ema_bounds prices p hp c c
      (fun x hx => by rw [hc x hx]; exact ⟨le_refl _, le_refl _⟩) y hy
    exact le_antisymm this.2 this.1

end Indicators

end signalops

/-! ## Bid-side invariant, best bid and level update with NaN-capable prices: the claims -/

namespace signalops

namespace Ieee

variable {N : Type} [LinearOrder N] [Zero N]

/-- Claim C7, as stated, fails: `update_bid(NaN, 1, 1)`, `update_bid(NaN, 2, 2)`,
`update_bid(100, 3, 3)` on a fresh book leave the bid levels `[100, NaN, NaN]`, which are
not strictly descending, and two levels carry the same (NaN) price. -/
theorem bid_side_not_descending_with_nan_price :
    ((OrderBook.new "BTC-USD" : OrderBook ℚ).run
      [.update_bid none (some 1) 1, .update_bid none (some 2) 2,
        .update_bid (some 100) (some 3) 3]).bids_.levels
      = [⟨some 100, some 3, 3⟩, ⟨none, some 2, 2⟩, ⟨none, some 1, 1⟩] ∧
    ¬ StrictDesc ((OrderBook.new "BTC-USD" : OrderBook ℚ).run
      [.update_bid none (some 1) 1, .update_bid none (some 2) 2,
        .update_bid (some 100) (some 3) 3]).bids_.levels ∧
    ¬ (((OrderBook.new "BTC-USD" : OrderBook ℚ).run
      [.update_bid none (some 1) 1, .update_bid none (some 2) 2,
        .update_bid (some 100) (some 3) 3]).bids_.levels.map (·.price)).Nodup := by
  refine ⟨by decide, ?_, by decide⟩
  unfold StrictDesc
  decide

/-- Claim C7, amended: after any sequence of `update_bid` / `update_ask` / `clear` calls on
a fresh book, none of which passes NaN as a bid price, the bid levels are strictly
descending by price (their prices are ordinary values forming a strictly decreasing list, so
no two levels share a price) and no bid level has a quantity that compares equal to 0. -/
theorem bid_side_strictly_descending_without_nan (symbol : String) (ops : List (Op N))
    (hops : ∀ op ∈ ops, op.bid_price_ordinary) :
    StrictDesc ((OrderBook.new symbol).run ops).bids_.levels ∧
    (∃ ps : List N,
      ((OrderBook.new symbol).run ops).bids_.levels.map (·.price) = ps.map some ∧
      ps.Pairwise (fun x y => x > y)) ∧
    (((OrderBook.new symbol).run ops).bids_.levels.map (·.price)).Nodup ∧
    ∀ level ∈ ((OrderBook.new symbol).run ops).bids_.levels,
      dbl_eq level.quantity (some 0) = false := by
  obtain ⟨hn, hs, hq⟩ := run_bids_inv ops hops _ (new_inv_dbl symbol).1
  refine ⟨hs, strictDesc_values hn hs, ?_, hq⟩
  unfold List.Nodup
  rw [List.pairwise_map]
  refine hs.imp ?_
  intro a b hgt heq
  rw [heq, dbl_gt_irrefl] at hgt
  exact Bool.false_ne_true hgt

/-- Claim C8, as stated, fails: after `update_bid` at 100, NaN, 101, 99 and then
`update_bid(101, 0, 5)` the bid levels are `[99, NaN, 100]`, so `get_best_bid()` returns 99
although a bid at 100 is present. -/
theorem best_bid_below_present_bid_with_nan_price :
    ((OrderBook.new "BTC-USD" : OrderBook ℚ).run
      [.update_bid (some 100) (some 1) 1, .update_bid none (some 1) 2,
        .update_bid (some 101) (some 1) 3, .update_bid (some 99) (some 1) 4,
        .update_bid (some 101) (some 0) 5]).bids_.levels
      = [⟨some 99, some 1, 4⟩, ⟨none, some 1, 2⟩, ⟨some 100, some 1, 1⟩] ∧
    ((OrderBook.new "BTC-USD" : OrderBook ℚ).run
      [.update_bid (some 100) (some 1) 1, .update_bid none (some 1) 2,
        .update_bid (some 101) (some 1) 3, .update_bid (some 99) (some 1) 4,
        .update_bid (some 101) (some 0) 5]).get_best_bid = some 99 ∧
    (∃ level ∈ ((OrderBook.new "BTC-USD" : OrderBook ℚ).run
      [.update_bid (some 100) (some 1) 1, .update_bid none (some 1) 2,
        .update_bid (some 101) (some 1) 3, .update_bid (some 99) (some 1) 4,
        .update_bid (some 101) (some 0) 5]).bids_.levels,
      dbl_gt level.price ((OrderBook.new "BTC-USD" : OrderBook ℚ).run
        [.update_bid (some 100) (some 1) 1, .update_bid none (some 1) 2,
          .update_bid (some 101) (some 1) 3, .update_bid (some 99) (some 1) 4,
          .update_bid (some 101) (some 0) 5]).get_best_bid = true) :=
  ⟨by decide, by decide, ⟨⟨some 100, some 1, 1⟩, by decide, by decide⟩⟩

/-- Claim C8, amended: in a book reached by calls that never pass NaN as a bid price,
`get_best_bid()` is 0 on an empty bid side and otherwise the highest bid price present;
after `update_bid(p, q, t)` with `p` not NaN and `q > 0` it is `p` whenever `p` is at
least every bid price that was present. -/
theorem best_bid_is_maximum_without_nan (b : OrderBook N)
    (h : b.ReachableWith Op.bid_price_ordinary) :
    (b.bids_.levels = [] → b.get_best_bid = some 0) ∧
    (b.bids_.levels ≠ [] →
      (∃ level ∈ b.bids_.levels, level.price = b.get_best_bid) ∧
      ∀ level ∈ b.bids_.levels, dbl_le level.price b.get_best_bid = true) ∧
    (∀ (p : N) (q : Option N) (t : Nat), dbl_gt q (some 0) = true →
      (∀ level ∈ b.bids_.levels, dbl_le level.price (some p) = true) →
      (b.update_bid (some p) q t).get_best_bid = some p) := by
  have hinv := reachable_bids_inv h
  refine ⟨?_, ?_, ?_⟩
  · intro hnil
    unfold OrderBook.get_best_bid
    rw [get_best_of_nil_dbl hnil]
  · intro hne
    exact ⟨⟨_, get_best_mem_dbl hne, rfl⟩, get_best_ge_dbl hinv.1 hinv.2.1⟩
  · intro p q t hq hmax
    have hq0 : dbl_eq q (some 0) = false := by
      obtain ⟨x, y, rfl, hy, hxy⟩ := dbl_gt_true hq
      cases hy
      simp only [dbl_eq, decide_eq_false_iff_not]
      exact ne_of_gt hxy
    have hinv' : SideInv (b.bids_.update_level (some p) q t) :=
      update_level_inv_dbl _ p q t hinv
    have hnew : (⟨some p, q, t⟩ : PriceLevel N)
        ∈ (b.bids_.update_level (some p) q t).levels := by
      have := (update_level_spec_dbl b.bids_ p q t hinv.2.1 hq0).1
      have hm : (⟨some p, q, t⟩ : PriceLevel N) ∈
          (b.bids_.update_level (some p) q t).levels.filter
            (fun level => dbl_eq level.price (some p)) := by
        rw [this]; exact List.mem_singleton_self _
      exact List.mem_of_mem_filter hm
    have hne : (b.bids_.update_level (some p) q t).levels ≠ [] := List.ne_nil_of_mem hnew
    show (b.bids_.update_level (some p) q t).get_best.price = some p
    apply dbl_le_antisymm
    · rcases update_level_mem_dbl hq0 _ (get_best_mem_dbl hne) with hm | he
      · exact hmax _ hm
      · rw [he]
        exact dbl_le_self (by simp)
    · exact get_best_ge_dbl hinv'.1 hinv'.2.1 _ hnew

/-- Claim C10, as stated, fails: in the reachable book holding one bid at price NaN,
`update_bid(NaN, 2, 2)` does not overwrite that level but adds a second one, so a level
with that price existed and still the number of levels grows, two levels carry the price,
and none compares equal to it. -/
theorem nan_price_update_adds_second_level :
    ((OrderBook.new "BTC-USD" : OrderBook ℚ).run [.update_bid none (some 1) 1]).bids_.levels
      = [⟨none, some 1, 1⟩] ∧
    (((OrderBook.new "BTC-USD" : OrderBook ℚ).run [.update_bid none (some 1) 1]).update_bid
      none (some 2) 2).bids_.levels = [⟨none, some 2, 2⟩, ⟨none, some 1, 1⟩] ∧
    ((((OrderBook.new "BTC-USD" : OrderBook ℚ).run [.update_bid none (some 1) 1]).update_bid
      none (some 2) 2).bids_.levels.filter (fun level => decide (level.price = none))).length
      = 2 ∧
    (((OrderBook.new "BTC-USD" : OrderBook ℚ).run [.update_bid none (some 1) 1]).update_bid
      none (some 2) 2).bids_.levels.filter (fun level => dbl_eq level.price none) = [] :=
  ⟨by decide, by decide, by decide, by decide⟩

/-- Claim C10, amended: in a book reached by calls that never pass NaN as a price,
`update_bid(p, q, t)` (resp. `update_ask`) with `p` not NaN and `q` not comparing equal
to 0 leaves exactly one level at price `p` on that side, with quantity `q` and timestamp
`t`; if a level at `p` existed, the number of levels and the order of prices are unchanged
(the side is the old one with the level at `p` replaced where it stood); otherwise the
number of levels grows by one; the levels at other prices are the same, with the same
quantities and timestamps, in the same order. -/
theorem update_sets_level_without_nan (b : OrderBook N)
    (h : b.ReachableWith Op.price_ordinary) (p : N) (q : Option N) (t : Nat)
    (hq : dbl_eq q (some 0) = false) :
    ((b.update_bid (some p) q t).bids_.levels.filter
          (fun level => dbl_eq level.price (some p))
        = [⟨some p, q, t⟩] ∧
      ((∃ level ∈ b.bids_.levels, level.price = some p) →
        (b.update_bid (some p) q t).bids_.levels.length = b.bids_.levels.length ∧
        (b.update_bid (some p) q t).bids_.levels.map (·.price)
          = b.bids_.levels.map (·.price) ∧
        (b.update_bid (some p) q t).bids_.levels
          = b.bids_.levels.map (fun level =>
              if dbl_eq level.price (some p) then ⟨some p, q, t⟩ else level)) ∧
      ((¬ ∃ level ∈ b.bids_.levels, level.price = some p) →
        (b.update_bid (some p) q t).bids_.levels.length = b.bids_.levels.length + 1) ∧
      (b.update_bid (some p) q t).bids_.levels.filter
          (fun level => !dbl_eq level.price (some p))
        = b.bids_.levels.filter (fun level => !dbl_eq level.price (some p))) ∧
    ((b.update_ask (some p) q t).asks_.levels.filter
          (fun level => dbl_eq level.price (some p))
        = [⟨some p, q, t⟩] ∧
      ((∃ level ∈ b.asks_.levels, level.price = some p) →
        (b.update_ask (some p) q t).asks_.levels.length = b.asks_.levels.length ∧
        (b.update_ask (some p) q t).asks_.levels.map (·.price)
          = b.asks_.levels.map (·.price) ∧
        (b.update_ask (some p) q t).asks_.levels
          = b.asks_.levels.map (fun level =>
              if dbl_eq level.price (some p) then ⟨some p, q, t⟩ else level)) ∧
      ((¬ ∃ level ∈ b.asks_.levels, level.price = some p) →
        (b.update_ask (some p) q t).asks_.levels.length = b.asks_.levels.length + 1) ∧
      (b.update_ask (some p) q t).asks_.levels.filter
          (fun level => !dbl_eq level.price (some p))
        = b.asks_.levels.filter (fun level => !dbl_eq level.price (some p))) := by
  obtain ⟨hb, ha⟩ := reachable_inv_dbl h
  exact ⟨update_level_spec_dbl b.bids_ p q t hb.2.1 hq,
    update_level_spec_dbl b.asks_ p q t ha.2.1 hq⟩

end Ieee

end signalops

/-! ## Instances of the theorems at concrete inputs -/

namespace signalops

namespace Indicators

/-- The scenario of claim C2: prices `[100, 102, 101, 105, 103, 108, 107, 110]` with period 3
give 6 values, the first being 101. -/
theorem sma_is_window_mean_witness :
    1 ≤ 3 ∧
    (calculate_sma ([100, 102, 101, 105, 103, 108, 107, 110] : List ℚ) 3).length = 6 ∧
    (calculate_sma ([100, 102, 101, 105, 103, 108, 107, 110] : List ℚ) 3)[0]? = some 101 := by
  have h := sma_is_window_mean ([100, 102, 101, 105, 103, 108, 107, 110] : List ℚ) 3
    (by decide)
  refine ⟨by decide, (h.2.2 (by decide)).1, ?_⟩
  rw [((h.2.2 (by decide)).2 0 (by decide)).2.2]
  norm_num [window]

/-- An instance of claim C3: prices `[100, 102, 101, 105]` with period 3 start at the mean
101 of the first three prices and then follow the recurrence with multiplier `2 / 4`. -/
theorem ema_seed_and_recurrence_witness :
    1 ≤ 3 ∧ ([100, 102, 101, 105] : List ℚ) ≠ [] ∧
    (calculate_ema ([100, 102, 101, 105] : List ℚ) 3).length = 4 ∧
    (calculate_ema ([100, 102, 101, 105] : List ℚ) 3)[0]? = some 101 ∧
    (calculate_ema ([100, 102, 101, 105] : List ℚ) 3).getD 1 0
      = 2 / ((3 : ℕ) + 1) * (102 - (calculate_ema ([100, 102, 101, 105] : List ℚ) 3).getD 0 0)
        + (calculate_ema ([100, 102, 101, 105] : List ℚ) 3).getD 0 0 := by
  have h := (ema_seed_and_recurrence ([100, 102, 101, 105] : List ℚ) 3).2 (by decide)
    (by decide)
  refine ⟨by decide, by decide, h.1, ?_, h.2.2.2.2 1 (by decide) (by decide)⟩
  rw [h.2.2.2.1]
  norm_num

/-- An instance of claim C4: the seven RSI values of
`[100, 102, 101, 105, 103, 108, 107, 110]` with period 3 lie in `[0, 100]`. -/
theorem rsi_in_range_witness :
    1 ≤ 3 ∧ 3 + 1 ≤ ([100, 102, 101, 105, 103, 108, 107, 110] : List ℚ).length ∧
    (calculate_rsi ([100, 102, 101, 105, 103, 108, 107, 110] : List ℚ) 3).length = 7 ∧
    ∀ x ∈ calculate_rsi ([100, 102, 101, 105, 103, 108, 107, 110] : List ℚ) 3,
      0 ≤ x ∧ x ≤ 100 :=
  ⟨by decide, by decide,
    (rsi_in_range ([100, 102, 101, 105, 103, 108, 107, 110] : List ℚ) 3 (by decide)
      (by decide)).1,
    (rsi_in_range ([100, 102, 101, 105, 103, 108, 107, 110] : List ℚ) 3 (by decide)
      (by decide)).2.1⟩

/-- An instance of claim C5: MACD of five prices with periods 2, 3, 2. -/
theorem macd_lines_witness :
    1 ≤ 2 ∧ 1 ≤ 3 ∧ 1 ≤ 2 ∧
    (calculate_macd ([100, 102, 101, 105, 103] : List ℚ) 2 3 2).macd_line.length = 5 ∧
    (calculate_macd ([100, 102, 101, 105, 103] : List ℚ) 2 3 2).signal_line
      = calculate_ema (calculate_macd ([100, 102, 101, 105, 103] : List ℚ) 2 3 2).macd_line 2 ∧
    (calculate_macd ([100, 102, 101, 105, 103] : List ℚ) 2 3 2).histogram.getD 1 0
      = (calculate_macd ([100, 102, 101, 105, 103] : List ℚ) 2 3 2).macd_line.getD 1 0
        - (calculate_macd ([100, 102, 101, 105, 103] : List ℚ) 2 3 2).signal_line.getD 1 0 := by
  have h := ((macd_lines ([100, 102, 101, 105, 103] : List ℚ) 2 3 2).2 (by decide)
    (by decide) (by decide) (by decide)).2
  exact ⟨by decide, by decide, by decide, h.1, h.2.2.2.2.1, h.2.2.2.2.2 1 (by decide)⟩

/-- An instance of claim C6 over the reals with the real square root: prices `[1, 3]`,
period 2 and `k = 2` have mean 2 and standard deviation 1, hence bands 4 and 0. -/
theorem bollinger_bands_about_sma_witness :
    (∀ x : ℝ, 0 ≤ Real.sqrt x) ∧ (∀ x : ℝ, 0 ≤ x → Real.sqrt x * Real.sqrt x = x) ∧ 1 ≤ 2 ∧
    (calculate_bollinger_bands Real.sqrt ([1, 3] : List ℝ) 2 2).middle.getD 0 0 = 2 ∧
    (calculate_bollinger_bands Real.sqrt ([1, 3] : List ℝ) 2 2).upper.getD 0 0 = 4 ∧
    (calculate_bollinger_bands Real.sqrt ([1, 3] : List ℝ) 2 2).lower.getD 0 0 = 0 := by
  have h := ((bollinger_bands_about_sma Real.sqrt Real.sqrt_nonneg
    (fun x hx => Real.mul_self_sqrt hx) ([1, 3] : List ℝ) 2 2).2 (by decide)
      (by decide)).2.2.2.2 0 (by decide)
  have hmid : (calculate_bollinger_bands Real.sqrt ([1, 3] : List ℝ) 2 2).middle.getD 0 0
      = 2 := by
    rw [h.2.1]
    norm_num [window]
  have hvar : window_variance ([1, 3] : List ℝ) 0 2 2 = 1 := by
    norm_num [window_variance, window]
  refine ⟨Real.sqrt_nonneg, fun x hx => Real.mul_self_sqrt hx, by decide, hmid, ?_, ?_⟩
  · rw [h.2.2.1, hmid, hvar, Real.sqrt_one]
    norm_num
  · rw [h.2.2.2.1, hmid, hvar, Real.sqrt_one]
    norm_num

end Indicators

end signalops

/-! ## Instances of the query, RSI and period theorems at concrete inputs -/

namespace signalops

/-- An instance of the amended claim C11: with a bid at 100 and an ask at 101 neither best
price is 0 and the mid price is their mean. -/
theorem mid_price_with_zero_sentinel_witness :
    ((OrderBook.new "BTC-USD").run [.update_bid 100 5 1, .update_ask 101 3 2]).get_best_bid
      ≠ 0 ∧
    ((OrderBook.new "BTC-USD").run [.update_bid 100 5 1, .update_ask 101 3 2]).get_best_ask
      ≠ 0 ∧
    ((OrderBook.new "BTC-USD").run [.update_bid 100 5 1, .update_ask 101 3 2]).get_mid_price
      = (((OrderBook.new "BTC-USD").run
            [.update_bid 100 5 1, .update_ask 101 3 2]).get_best_bid
          + ((OrderBook.new "BTC-USD").run
            [.update_bid 100 5 1, .update_ask 101 3 2]).get_best_ask) / 2 :=
  ⟨by decide, by decide,
    (mid_price_with_zero_sentinel
      ((OrderBook.new "BTC-USD").run [.update_bid 100 5 1, .update_ask 101 3 2])).2.2.1
      (by decide) (by decide)⟩

/-- An instance of the amended claim C12: a crossed book with a bid at 102 and an ask at
101 has a negative spread. -/
theorem spread_with_zero_sentinel_witness :
    ((OrderBook.new "BTC-USD").run [.update_bid 102 5 1, .update_ask 101 3 2]).get_best_bid
      ≠ 0 ∧
    ((OrderBook.new "BTC-USD").run [.update_bid 102 5 1, .update_ask 101 3 2]).get_best_ask
      ≠ 0 ∧
    ((OrderBook.new "BTC-USD").run [.update_bid 102 5 1, .update_ask 101 3 2]).get_best_bid
      > ((OrderBook.new "BTC-USD").run
          [.update_bid 102 5 1, .update_ask 101 3 2]).get_best_ask ∧
    ((OrderBook.new "BTC-USD").run [.update_bid 102 5 1, .update_ask 101 3 2]).get_spread
      < 0 :=
  ⟨by decide, by decide, by decide,
    (spread_with_zero_sentinel
      ((OrderBook.new "BTC-USD").run [.update_bid 102 5 1, .update_ask 101 3 2])).2.2.2
      (by decide) (by decide) (by decide)⟩

/-- An instance of the amended claim C14: with quantities 5 and 3 the imbalance lies in
`[-1, 1]`. -/
theorem imbalance_in_range_in_exact_arithmetic_witness :
    (∀ level ∈ ((OrderBook.new "BTC-USD").run
        [.update_bid 100 5 1, .update_ask 101 3 2]).bids_.levels, 0 ≤ level.quantity) ∧
    (∀ level ∈ ((OrderBook.new "BTC-USD").run
        [.update_bid 100 5 1, .update_ask 101 3 2]).asks_.levels, 0 ≤ level.quantity) ∧
    -1 ≤ ((OrderBook.new "BTC-USD").run
        [.update_bid 100 5 1, .update_ask 101 3 2]).get_order_imbalance ∧
    ((OrderBook.new "BTC-USD").run
        [.update_bid 100 5 1, .update_ask 101 3 2]).get_order_imbalance ≤ 1 :=
  ⟨by decide, by decide,
    (imbalance_in_range_in_exact_arithmetic
      ((OrderBook.new "BTC-USD").run [.update_bid 100 5 1, .update_ask 101 3 2])).2.1
      (by decide) (by decide)⟩

/-- An instance of the amended claim C15: with a bid `100 × 5` and an ask `101 × 3` the
depth-10 volumes are 5 and 3 and the imbalance is their quotient `(5 - 3) / (5 + 3)`. -/
theorem imbalance_at_depth_ten_witness :
    (⟨"BTC-USD", ⟨[⟨100, 5, 1⟩]⟩, ⟨[⟨101, 3, 2⟩]⟩, 2⟩ : OrderBook).get_bid_volume 10
      + (⟨"BTC-USD", ⟨[⟨100, 5, 1⟩]⟩, ⟨[⟨101, 3, 2⟩]⟩, 2⟩ : OrderBook).get_ask_volume 10
      ≠ 0 ∧
    (⟨"BTC-USD", ⟨[⟨100, 5, 1⟩]⟩, ⟨[⟨101, 3, 2⟩]⟩, 2⟩ : OrderBook).get_order_imbalance
      = ((⟨"BTC-USD", ⟨[⟨100, 5, 1⟩]⟩, ⟨[⟨101, 3, 2⟩]⟩, 2⟩ : OrderBook).get_bid_volume 10
          - (⟨"BTC-USD", ⟨[⟨100, 5, 1⟩]⟩, ⟨[⟨101, 3, 2⟩]⟩, 2⟩ : OrderBook).get_ask_volume 10)
        / ((⟨"BTC-USD", ⟨[⟨100, 5, 1⟩]⟩, ⟨[⟨101, 3, 2⟩]⟩, 2⟩ : OrderBook).get_bid_volume 10
          + (⟨"BTC-USD", ⟨[⟨100, 5, 1⟩]⟩, ⟨[⟨101, 3, 2⟩]⟩, 2⟩ : OrderBook).get_ask_volume
              10) := by
  have hne : (⟨"BTC-USD", ⟨[⟨100, 5, 1⟩]⟩, ⟨[⟨101, 3, 2⟩]⟩, 2⟩ : OrderBook).get_bid_volume 10
      + (⟨"BTC-USD", ⟨[⟨100, 5, 1⟩]⟩, ⟨[⟨101, 3, 2⟩]⟩, 2⟩ : OrderBook).get_ask_volume 10
      ≠ 0 := by
    norm_num [OrderBook.get_bid_volume, OrderBook.get_ask_volume, OrderBook.volume_loop]
  exact ⟨hne, (imbalance_at_depth_ten _).1 hne⟩

namespace Indicators

/-- An instance of claim C17: the non-decreasing prices `[100, 101, 101, 105]` with period 2
have three RSI values, all equal to 100. -/
theorem rsi_is_100_without_losses_witness :
    1 ≤ 2 ∧ 2 + 1 ≤ ([100, 101, 101, 105] : List ℚ).length ∧
    (calculate_rsi ([100, 101, 101, 105] : List ℚ) 2).length = 3 ∧
    (∀ x ∈ calculate_rsi ([100, 101, 101, 105] : List ℚ) 2, x = 100) ∧
    (calculate_rsi ([100, 101, 101, 105] : List ℚ) 2)[0]? = some 100 := by
  have h := rsi_is_100_without_losses ([100, 101, 101, 105] : List ℚ) 2 (by decide)
    (by decide)
  refine ⟨by decide, by decide, h.1, h.2.1 ?_, h.2.2 ?_⟩
  · intro j hj
    have hj' : j < 3 := by
      have h4 : j + 1 < 4 := by simpa using hj
      omega
    interval_cases j <;> norm_num
  · intro j hj
    interval_cases j <;> norm_num

/-- An instance of the amended claim C20: with period 3 neither function divides by
zero on three prices. -/
theorem period_zero_reaches_division_witness :
    1 ≤ 3 ∧
    calculate_sma_checked ([100, 102, 101] : List ℚ) 3
      = some (calculate_sma ([100, 102, 101] : List ℚ) 3) ∧
    calculate_ema_checked ([100, 102, 101] : List ℚ) 3
      = some (calculate_ema ([100, 102, 101] : List ℚ) 3) :=
  ⟨by decide, (period_zero_reaches_division ([100, 102, 101] : List ℚ) 3).2.2.2.2
    (by decide)⟩

end Indicators

end signalops

/-! ## Instances of the summation and moving-average bounds at concrete inputs -/

namespace signalops

namespace Indicators

/-- An instance of claim C21: the first 6 of 7 values, one full vector step and two
remainder elements, sum to 21 either way. -/
theorem simd_sum_agrees_with_scalar_sum_witness :
    6 ≤ ([1, 2, 3, 4, 5, 6, 7] : List ℚ).length ∧
    simd_sum ([1, 2, 3, 4, 5, 6, 7] : List ℚ) 6 = scalar_sum ([1, 2, 3, 4, 5, 6, 7] : List ℚ) 6 ∧
    simd_sum ([1, 2, 3, 4, 5, 6, 7] : List ℚ) 6 = 21 := by
  have h := simd_sum_agrees_with_scalar_sum ([1, 2, 3, 4, 5, 6, 7] : List ℚ) 6 (by decide)
  refine ⟨by decide, h.1, ?_⟩
  rw [h.1, h.2.1]
  norm_num

/-- An instance of claim C22: the moving average of `[100, 102, 101, 105]` with period 3
stays within `[100, 105]`, and that of the constant sequence `[7, 7, 7]` is 7 throughout. -/
theorem ema_between_min_and_max_witness :
    1 ≤ 3 ∧ ([100, 102, 101, 105] : List ℚ) ≠ [] ∧ ([7, 7, 7] : List ℚ) ≠ [] ∧
    (∀ y ∈ calculate_ema ([100, 102, 101, 105] : List ℚ) 3, 100 ≤ y ∧ y ≤ 105) ∧
    (∀ y ∈ calculate_ema ([7, 7, 7] : List ℚ) 3, y = 7) := by
  refine ⟨by decide, by decide, by decide, ?_, ?_⟩
  · apply (ema_between_min_and_max ([100, 102, 101, 105] : List ℚ) 3 (by decide)
      (by decide)).2.2.1 100 105
    intro x hx
    simp only [List.mem_cons, List.mem_singleton, List.not_mem_nil, or_false] at hx
    rcases hx with rfl | rfl | rfl | rfl <;> norm_num
  · apply (ema_between_min_and_max ([7, 7, 7] : List ℚ) 3 (by decide) (by decide)).2.2.2 7
    intro x hx
    simp only [List.mem_cons, List.mem_singleton, List.not_mem_nil, or_false] at hx
    rcases hx with rfl | rfl | rfl <;> rfl

end Indicators

end signalops

/-! ## Instances of the NaN-aware order-book theorems at concrete inputs -/

namespace signalops

namespace Ieee

/-- An instance of the amended claim C7: bids at 100 and 101 and an ask at price NaN leave
the bid side strictly descending. -/
theorem bid_side_strictly_descending_without_nan_witness :
    (∀ op ∈ ([.update_bid (some 100) (some 5) 1, .update_bid (some 101) (some 2) 2,
        .update_ask none (some 1) 3] : List (Op ℚ)), op.bid_price_ordinary) ∧
    StrictDesc ((OrderBook.new "BTC-USD" : OrderBook ℚ).run
      [.update_bid (some 100) (some 5) 1, .update_bid (some 101) (some 2) 2,
        .update_ask none (some 1) 3]).bids_.levels ∧
    ((OrderBook.new "BTC-USD" : OrderBook ℚ).run
      [.update_bid (some 100) (some 5) 1, .update_bid (some 101) (some 2) 2,
        .update_ask none (some 1) 3]).bids_.levels
      = [⟨some 101, some 2, 2⟩, ⟨some 100, some 5, 1⟩] := by
  have hops : ∀ op ∈ ([.update_bid (some 100) (some 5) 1, .update_bid (some 101) (some 2) 2,
      .update_ask none (some 1) 3] : List (Op ℚ)), op.bid_price_ordinary := by
    intro op hop
    simp only [List.mem_cons, List.mem_singleton, List.not_mem_nil, or_false] at hop
    rcases hop with rfl | rfl | rfl <;> simp [Op.bid_price_ordinary]
  exact ⟨hops, (bid_side_strictly_descending_without_nan "BTC-USD" _ hops).1, by decide⟩

/-- An instance of the amended claim C8: with bids at 100 and 101 the best bid is 101, and
a new bid at 102 becomes the best bid. -/
theorem best_bid_is_maximum_without_nan_witness :
    ((OrderBook.new "BTC-USD" : OrderBook ℚ).run
      [.update_bid (some 100) (some 5) 1, .update_bid (some 101) (some 2) 2]).ReachableWith
        Op.bid_price_ordinary ∧
    ((OrderBook.new "BTC-USD" : OrderBook ℚ).run
      [.update_bid (some 100) (some 5) 1, .update_bid (some 101) (some 2) 2]).get_best_bid
      = some 101 ∧
    (∀ level ∈ ((OrderBook.new "BTC-USD" : OrderBook ℚ).run
        [.update_bid (some 100) (some 5) 1, .update_bid (some 101) (some 2) 2]).bids_.levels,
      dbl_le level.price ((OrderBook.new "BTC-USD" : OrderBook ℚ).run
        [.update_bid (some 100) (some 5) 1,
          .update_bid (some 101) (some 2) 2]).get_best_bid = true) ∧
    (((OrderBook.new "BTC-USD" : OrderBook ℚ).run
      [.update_bid (some 100) (some 5) 1, .update_bid (some 101) (some 2) 2]).update_bid
        (some 102) (some 1) 3).get_best_bid = some 102 := by
  have hr : ((OrderBook.new "BTC-USD" : OrderBook ℚ).run
      [.update_bid (some 100) (some 5) 1, .update_bid (some 101) (some 2) 2]).ReachableWith
        Op.bid_price_ordinary := by
    refine ⟨_, _, ?_, rfl⟩
    intro op hop
    simp only [List.mem_cons, List.mem_singleton, List.not_mem_nil, or_false] at hop
    rcases hop with rfl | rfl <;> simp [Op.bid_price_ordinary]
  have h := best_bid_is_maximum_without_nan _ hr
  exact ⟨hr, by decide, (h.2.1 (by decide)).2, h.2.2 102 (some 1) 3 (by decide) (by decide)⟩

/-- An instance of the amended claim C10: overwriting the bid at 100 in a book with bids at
100 and 101 keeps two levels and leaves exactly one level at 100, with the new quantity
and timestamp. -/
theorem update_sets_level_without_nan_witness :
    ((OrderBook.new "BTC-USD" : OrderBook ℚ).run
      [.update_bid (some 100) (some 5) 1, .update_bid (some 101) (some 2) 2]).ReachableWith
        Op.price_ordinary ∧
    dbl_eq (some (7 : ℚ)) (some 0) = false ∧
    (((OrderBook.new "BTC-USD" : OrderBook ℚ).run
      [.update_bid (some 100) (some 5) 1, .update_bid (some 101) (some 2) 2]).update_bid
        (some 100) (some 7) 3).bids_.levels.filter
          (fun level => dbl_eq level.price (some 100))
      = [⟨some 100, some 7, 3⟩] ∧
    (((OrderBook.new "BTC-USD" : OrderBook ℚ).run
      [.update_bid (some 100) (some 5) 1, .update_bid (some 101) (some 2) 2]).update_bid
        (some 100) (some 7) 3).bids_.levels.length = 2 := by
  have hr : ((OrderBook.new "BTC-USD" : OrderBook ℚ).run
      [.update_bid (some 100) (some 5) 1, .update_bid (some 101) (some 2) 2]).ReachableWith
        Op.price_ordinary := by
    refine ⟨_, _, ?_, rfl⟩
    intro op hop
    simp only [List.mem_cons, List.mem_singleton, List.not_mem_nil, or_false] at hop
    rcases hop with rfl | rfl <;>
      simp [Op.price_ordinary, Op.bid_price_ordinary, Op.ask_price_ordinary]
  have h := (update_sets_level_without_nan _ hr 100 (some 7) 3 (by decide)).1
  exact ⟨hr, by decide, h.1, (h.2.1 ⟨⟨some 100, some 5, 1⟩, by decide, by decide⟩).1⟩

end Ieee

end signalops
